import Mathlib

/-!
Shallow embedding of `lighthouse-core/lib/traces/tracing-processor.js`.

Numbers: JS numbers are modelled as `ℚ`.  The `NaN` placeholders that the
code stores in `endTime`, `duration` and `selfTime` (and JS `undefined` for
optional fields) are modelled as `none : Option ℚ`; JS arithmetic on `NaN`
propagates, which the `Option.map`/`match` combinators below reproduce, and
`Number.isFinite x` becomes `x.isSome` (a `some` rational is always finite).
`ℚ` division by zero is `0` (JS would give `Infinity`); every place this
matters is noted where it is used.

The mutable `TaskNode` tree with parent/children pointers is modelled as an
arena: the flat `tasks` array of the source is a `List TaskNode`, and
`parent`/`children` hold indices into that list.
-/

namespace TracingProcessor

/-- One frame record of a call stack in `event.args.data.stackTrace`. -/
structure StackFrame where
  url : Option String
deriving Repr, DecidableEq

/-- One frame descriptor of `TracingStartedInBrowser`'s `args.data.frames`.
`hasParent` models the JS truthiness of `frame.parent`. -/
structure FrameDescriptor where
  hasParent : Bool
  processId : Option Nat
  frame : String
deriving Repr, DecidableEq

/-- The `args.data` payload of a trace event (absent fields are `none`). -/
structure ArgsData where
  url : Option String
  stackTrace : Option (List StackFrame)
  frames : Option (List FrameDescriptor)
  page : Option String
deriving Repr, DecidableEq

/-- The `args` map of a trace event; `name` is the `args.name` field used by
`thread_name` metadata events. -/
structure EventArgs where
  data : Option ArgsData
  name : Option String
deriving Repr, DecidableEq

/-- An `LH.TraceEvent` restricted to the fields the processor reads.
`dur` is optional: it is only present on Complete (`X`) events. -/
structure TraceEvent where
  name : String
  cat : String
  ph : String
  pid : Nat
  tid : Nat
  ts : ℚ
  dur : Option ℚ
  args : EventArgs
deriving Repr, DecidableEq

/-- Source line 10: `const BASE_RESPONSE_LATENCY = 16`. -/
def BASE_RESPONSE_LATENCY : ℚ := 16

/-- Source line 11. -/
def SCHEDULABLE_TASK_TITLE : String := "TaskQueueManager::ProcessTaskFromWorkQueue"

/-- Source line 12. -/
def SCHEDULABLE_TASK_TITLE_ALT : String := "ThreadControllerImpl::DoWork"

/-- The generic `taskGroups.Other` category id (the task-groups table itself is
an external collaborator; groups are modelled by their id strings). -/
def taskGroupsOther : String := "Other"

/-- A reconstructed `TaskNode`, arena style: `parent` and `children` are
indices into the flat task list.  `endTime`, `duration`, `selfTime` are
`Option ℚ` because the source initialises them to `NaN`. -/
structure TaskNode where
  event : TraceEvent
  startTime : ℚ
  endTime : Option ℚ
  parent : Option Nat
  children : List Nat
  group : String
  attributableURL : Option String
  duration : Option ℚ
  selfTime : Option ℚ
deriving Repr, DecidableEq

/-- `findTracingStartedEvt` (source lines 347-378).  Prefers a
`TracingStartedInBrowser` event carrying a frame list, from which it finds the
parentless main frame, its process id and that process's `CrRendererMain`
`thread_name` metadata event, synthesizing a `TracingStartedInPage` event
bound to that pid/tid; otherwise falls back to a literal
`TracingStartedInPage` event.  Failing both is the fatal `NO_TRACING_STARTED`
error.  The final `args.data.page` read (for `frameId`) throws a JS
`TypeError` when `args.data` is absent, modelled as an error as well. -/
def findTracingStartedEvt (events : List TraceEvent) : Except String TraceEvent :=
  let fromBrowser : Option TraceEvent :=
    match events.find? (fun e => e.name == "TracingStartedInBrowser") with
    | none => none
    | some evt =>
      match evt.args.data with
      | none => none
      | some d =>
        match d.frames with
        | none => none
        | some frames =>
          match frames.find? (fun f => !f.hasParent) with
          | none => none
          | some mainFrame =>
            match mainFrame.processId with
            | none => none
            | some pid =>
              match events.find? (fun e => e.pid == pid && e.ph == "M" &&
                  e.cat == "__metadata" && e.name == "thread_name" &&
                  e.args.name == some ("CrRendererMain")) with
              | none => none
              | some threadNameEvt =>
                some { evt with
                  pid := pid
                  tid := threadNameEvt.tid
                  name := "TracingStartedInPage"
                  args := { data := some { url := none, stackTrace := none, frames := none,
                                           page := some mainFrame.frame },
                            name := none } }
  let startedInPageEvt :=
    match fromBrowser with
    | some e => some e
    | none => events.find? (fun e => e.name == "TracingStartedInPage")
  match startedInPageEvt with
  | none => Except.error ("NO_TRACING_STARTED")
  | some e =>
    match e.args.data with
    | none => Except.error ("TypeError")
    | some _ => Except.ok e

/-- `_createNewTaskNode` (source lines 24-44): `endTime` is `ts + dur` for a
Complete (`X`) event (`Number(event.dur || 0)` defaults a missing `dur` to 0)
and the `NaN` placeholder (`none`) otherwise.  The source also pushes the new
node onto `parent.children`; in the arena model that append is performed by
the caller (`_createTasksFromEvents`), with the same effect. -/
def _createNewTaskNode (event : TraceEvent) (parent : Option Nat) : TaskNode :=
  { event := event
    startTime := event.ts
    endTime := if event.ph = "X" then some (event.ts + event.dur.getD 0) else none
    parent := parent
    children := []
    group := taskGroupsOther
    attributableURL := none
    duration := none
    selfTime := none }

/-- Replace the node at index `i` by `f` of it (no-op when out of bounds);
models a field mutation of one node of the arena. -/
def modifyAt (tasks : List TaskNode) (i : Nat) (f : TaskNode → TaskNode) : List TaskNode :=
  match tasks[i]? with
  | none => tasks
  | some n => tasks.set i (f n)

/-- The ascend-on-timestamp loop of `_createTasksFromEvents` (source lines
66-72): climb to the parent while the current task's `endTime` is finite and
`<= event.ts`.  Parent indices strictly decrease along the chain, so the
explicit `fuel` (always called with `tasks.length`, which exceeds any chain
length) never runs out on arenas built by the reconstruction. -/
def ascend (tasks : List TaskNode) (ts : ℚ) : Nat → Option Nat → Option Nat
  | _, none => none
  | 0, some i => some i
  | fuel + 1, some i =>
    match tasks[i]? with
    | none => some i
    | some n =>
      match n.endTime with
      | none => some i
      | some e => if e ≤ ts then ascend tasks ts fuel n.parent else some i

/-- One iteration of the event loop of `_createTasksFromEvents` (source lines
58-101) on the arena state (flat task list, current open task index). -/
def stepEvent (pid tid : Nat) (st : List TaskNode × Option Nat) (event : TraceEvent) :
    Except String (List TaskNode × Option Nat) :=
  let tasks := st.1
  if event.pid ≠ pid ∨ event.tid ≠ tid then Except.ok st
  else if event.ph ≠ "X" ∧ event.ph ≠ "B" ∧ event.ph ≠ "E" then Except.ok st
  else
    match ascend tasks event.ts tasks.length st.2 with
    | none =>
      if event.ph = "E" then Except.error ("Fatal trace logic error")
      else Except.ok (tasks ++ [_createNewTaskNode event none], some tasks.length)
    | some i =>
      if event.ph = "X" ∨ event.ph = "B" then
        let newIdx := tasks.length
        Except.ok
          (modifyAt (tasks ++ [_createNewTaskNode event (some i)]) i
            (fun n => { n with children := n.children ++ [newIdx] }),
           some newIdx)
      else
        match tasks[i]? with
        | none => Except.ok (tasks, none)
        | some n =>
          if n.event.ph ≠ "B" then Except.error ("Fatal trace logic error")
          else Except.ok
            (modifyAt tasks i (fun m => { m with endTime := some event.ts }), n.parent)

/-- The event loop of `_createTasksFromEvents`: a thrown error aborts the
whole scan (no partial forest escapes). -/
def runEvents (pid tid : Nat) : List TraceEvent → (List TaskNode × Option Nat) →
    Except String (List TaskNode × Option Nat)
  | [], st => Except.ok st
  | e :: rest, st =>
    match stepEvent pid tid st e with
    | Except.error m => Except.error m
    | Except.ok st' => runEvents pid tid rest st'

/-- `_createTasksFromEvents` (source lines 50-104): locate the started-in-page
event, then scan all events, keeping only those on its pid/tid with phase
`X`, `B` or `E`, building the forest. -/
def _createTasksFromEvents (traceEvents : List TraceEvent) : Except String (List TaskNode) :=
  match findTracingStartedEvt traceEvents with
  | Except.error m => Except.error m
  | Except.ok startedInPageEvt =>
    match runEvents startedInPageEvt.pid startedInPageEvt.tid traceEvents ([], none) with
    | Except.error m => Except.error m
    | Except.ok (tasks, _) => Except.ok tasks

/-- The `duration` written by `_computeRecursiveSelfTime` (source line 114):
`task.duration = task.endTime - task.startTime` (`NaN`, i.e. `none`,
propagates; `startTime` is always a finite rational). -/
def taskDuration (n : TaskNode) : Option ℚ :=
  n.endTime.map (fun e => e - n.startTime)

/-- The `childTime` accumulator of `_computeRecursiveSelfTime` (source lines
111-113): each recursive call on a child returns that child's `duration`
(which it computes as `endTime - startTime`), and the `reduce` sums those
return values starting from 0. -/
def childTime (tasks : List TaskNode) (n : TaskNode) : Option ℚ :=
  n.children.foldl
    (fun sum j =>
      match sum, tasks[j]? with
      | some s, some c => (taskDuration c).map (fun d => s + d)
      | _, _ => none)
    (some 0)

/-- The `selfTime` written by `_computeRecursiveSelfTime` (source line 115):
`task.selfTime = task.duration - childTime`. -/
def taskSelfTime (tasks : List TaskNode) (n : TaskNode) : Option ℚ :=
  match taskDuration n, childTime tasks n with
  | some d, some c => some (d - c)
  | _, _ => none

/-- JS truthiness of an optional string: `undefined` and the empty string are
falsy. -/
def strTruthy : Option String → Bool
  | some s => s ≠ ""
  | none => false

/-- The JS `a || b` on optional strings. -/
def jsOrStr (a b : Option String) : Option String :=
  if strTruthy a then a else b

/-- The `taskURL` of `_computeRecursiveAttributableURL` (source lines
124-126): the explicit `args.data.url` if truthy, else the url of the first
stack frame (`stackTrace` defaulting to `[{url: undefined}]`, and an empty
frame list giving `undefined`). -/
def taskURL (e : TraceEvent) : Option String :=
  let argsData := e.args.data.getD { url := none, stackTrace := none, frames := none, page := none }
  let stackFrames := argsData.stackTrace.getD [{ url := none }]
  jsOrStr argsData.url
    (match stackFrames with
     | [] => none
     | f :: _ => f.url)

/-- The `attributableURL` each node ends up with after the pre-order
`_computeRecursiveAttributableURL` pass (source lines 123-131): the pass
threads `task.attributableURL = parentURL || taskURL` down the tree (roots
get `parentURL = undefined`), so a node's final value unfolds along its
parent chain.  Parent indices strictly decrease, so `fuel = tasks.length`
(what `annotateTasks` passes) always suffices on reconstructed arenas. -/
def attributableURLAt (tasks : List TaskNode) : Nat → Nat → Option String
  | 0, _ => none
  | fuel + 1, i =>
    match tasks[i]? with
    | none => none
    | some n =>
      match n.parent with
      | none => jsOrStr none (taskURL n.event)
      | some p => jsOrStr (attributableURLAt tasks fuel p) (taskURL n.event)

/-- The `group` each node ends up with after the pre-order
`_computeRecursiveTaskGroup` pass (source lines 137-141):
`task.group = taskNameToGroup[name] || parentGroup || taskGroups.Other`,
where group values are always truthy and roots get
`parentGroup = undefined`.  The external name-to-group table is the
`nameToGroup` parameter. -/
def groupAt (nameToGroup : String → Option String) (tasks : List TaskNode) :
    Nat → Nat → String
  | 0, _ => taskGroupsOther
  | fuel + 1, i =>
    match tasks[i]? with
    | none => taskGroupsOther
    | some n =>
      match nameToGroup n.event.name with
      | some g => g
      | none =>
        match n.parent with
        | some p => groupAt nameToGroup tasks fuel p
        | none => taskGroupsOther

/-- The three metric passes of `getMainThreadTasks` (source lines 152-158),
written node-wise on the arena.  The source runs each recursive pass once per
root; since every node of the flat list is reachable from exactly one root
(children lists are built by the reconstruction), writing each node's final
field value directly is the same assignment. -/
def annotateTasks (nameToGroup : String → Option String) (tasks : List TaskNode) :
    List TaskNode :=
  tasks.mapIdx (fun i n =>
    { n with
      duration := taskDuration n
      selfTime := taskSelfTime tasks n
      attributableURL := attributableURLAt tasks tasks.length i
      group := groupAt nameToGroup tasks tasks.length i })

/-- The rescale-and-check loop of `getMainThreadTasks` (source lines 161-171):
shift every node by `firstTs`, convert the four time fields to milliseconds,
and fail fatally on the first node whose `selfTime` is not finite. -/
def rescaleTasks (firstTs : ℚ) : List TaskNode → Except String (List TaskNode)
  | [] => Except.ok []
  | n :: rest =>
    let r : TaskNode :=
      { n with
        startTime := (n.startTime - firstTs) / 1000
        endTime := n.endTime.map (fun e => (e - firstTs) / 1000)
        duration := n.duration.map (fun d => d / 1000)
        selfTime := n.selfTime.map (fun s => s / 1000) }
    match r.selfTime with
    | none => Except.error ("Invalid task timing data")
    | some _ =>
      match rescaleTasks firstTs rest with
      | Except.error m => Except.error m
      | Except.ok out => Except.ok (r :: out)

/-- The rescale reference point of `getMainThreadTasks` (source line 160):
`(tasks[0] || {startTime: 0}).startTime` — the start time of the first
element of the flat task list, 0 when the list is empty. -/
def firstTaskTs (tasks : List TaskNode) : ℚ :=
  match tasks[0]? with
  | some n => n.startTime
  | none => 0

/-- `getMainThreadTasks` (source lines 148-174): reconstruct, run the metric
passes, then rescale relative to the start time of the first task of the flat
list. -/
def getMainThreadTasks (nameToGroup : String → Option String)
    (traceEvents : List TraceEvent) : Except String (List TaskNode) :=
  match _createTasksFromEvents traceEvents with
  | Except.error m => Except.error m
  | Except.ok tasks =>
    rescaleTasks (firstTaskTs tasks) (annotateTasks nameToGroup tasks)

/-- The derived `ToplevelEvent` record (`end` is a Lean keyword, hence
`end_`). -/
structure ToplevelEvent where
  start : ℚ
  end_ : ℚ
  duration : ℚ
deriving Repr, DecidableEq

/-- The slice of `LH.Artifacts.TraceOfTab` that
`getMainThreadTopLevelEvents` reads. -/
structure TabTrace where
  mainThreadEvents : List TraceEvent
  navigationStartEvt : TraceEvent
deriving Repr, DecidableEq

/-- `isScheduleableTask` (source lines 384-386). -/
def isScheduleableTask (evt : TraceEvent) : Bool :=
  evt.name == SCHEDULABLE_TASK_TITLE || evt.name == SCHEDULABLE_TASK_TITLE_ALT

/-- JS falsiness of `event.dur` (`!event.dur`): absent or zero. -/
def durFalsy : Option ℚ → Bool
  | none => true
  | some d => d == 0

/-- `getMainThreadTopLevelEvents` (source lines 317-341): collect
`{start, end, duration}` (ms, relative to navigation start) for scheduleable
events with truthy `dur` overlapping the inclusive window, and fail fatally
when none is found.  The JS window defaults (`0`, `Infinity`) are supplied by
callers here; the window bounds are explicit rationals. -/
def getMainThreadTopLevelEvents (tabTrace : TabTrace) (startTime endTime : ℚ) :
    Except String (List ToplevelEvent) :=
  let topLevelEvents :=
    tabTrace.mainThreadEvents.foldl
      (fun acc event =>
        if !isScheduleableTask event || durFalsy event.dur then acc
        else
          let start := (event.ts - tabTrace.navigationStartEvt.ts) / 1000
          let end_ := (event.ts + event.dur.getD 0 - tabTrace.navigationStartEvt.ts) / 1000
          if start > endTime ∨ end_ < startTime then acc
          else acc ++ [{ start := start, end_ := end_, duration := event.dur.getD 0 / 1000 }])
      []
  if topLevelEvents.isEmpty then Except.error ("Could not find any top level events")
  else Except.ok topLevelEvents

/-- `getMainThreadTopLevelEventDurations` (source lines 275-307): durations of
all slices overlapping the window, front parts discarded, a tail part beyond
the window recorded as `clippedLength`, result sorted ascending. -/
def getMainThreadTopLevelEventDurations (topLevelEvents : List ToplevelEvent)
    (startTime endTime : ℚ) : List ℚ × ℚ :=
  let folded :=
    topLevelEvents.foldl
      (fun (acc : List ℚ × ℚ) event =>
        if event.end_ < startTime ∨ event.start > endTime then acc
        else
          let trimmed :=
            if event.start < startTime then (startTime, event.end_ - startTime)
            else (event.start, event.duration)
          let eventStart := trimmed.1
          let duration := trimmed.2
          let clipped :=
            if event.end_ > endTime then duration - (endTime - eventStart) else acc.2
          (acc.1 ++ [duration], clipped))
      ([], 0)
  (folded.1.mergeSort (fun a b => a ≤ b), folded.2)

/-- The mutable locals of the `_riskPercentiles` walk (source lines
193-210). -/
structure RiskState where
  completedTime : ℚ
  duration : ℚ
  cdfTime : ℚ
  durationIndex : Int
  remainingCount : Int
  clippedLength : ℚ
deriving Repr, DecidableEq

/-- The initial walk state of `_riskPercentiles` (source lines 193-210):
idle time is pre-completed, `durationIndex = -1`, `remainingCount` is
`durations.length + 1`, one less when a clipped duration is pending. -/
def riskInitState (durations : List ℚ) (totalTime : ℚ) (clippedLength : ℚ) : RiskState :=
  let busyTime := durations.foldl (fun a b => a + b) 0 - clippedLength
  { completedTime := totalTime - busyTime
    duration := 0
    cdfTime := totalTime - busyTime
    durationIndex := -1
    remainingCount := (durations.length : Int) + 1 - (if 0 < clippedLength then 1 else 0)
    clippedLength := clippedLength }

/-- One iteration of the inner `while` of `_riskPercentiles` (source lines
217-231): account the previously loaded `duration` into `completedTime` and
`remainingCount` (a negative duration is the clipped pseudo-duration and
gives the count back), then load either the clipped portion (negated, at
most once) or the next duration, and recompute
`cdfTime = completedTime + |duration| * remainingCount`. -/
def riskStepOnce (durations : List ℚ) (st : RiskState) : RiskState :=
  let completedTime := st.completedTime + st.duration
  let remainingCount := st.remainingCount - (if st.duration < 0 then -1 else 1)
  if 0 < st.clippedLength ∧ st.clippedLength < durations.getD (st.durationIndex + 1).toNat 0 then
    { completedTime := completedTime
      duration := -st.clippedLength
      cdfTime := completedTime + |(-st.clippedLength)| * (remainingCount : ℚ)
      durationIndex := st.durationIndex
      remainingCount := remainingCount
      clippedLength := 0 }
  else
    let durationIndex := st.durationIndex + 1
    let duration := durations.getD durationIndex.toNat 0
    { completedTime := completedTime
      duration := duration
      cdfTime := completedTime + |duration| * (remainingCount : ℚ)
      durationIndex := durationIndex
      remainingCount := remainingCount
      clippedLength := st.clippedLength }

/-- The guard of the inner `while` of `_riskPercentiles` (source line 217). -/
def riskGuard (durations : List ℚ) (target : ℚ) (st : RiskState) : Prop :=
  st.cdfTime < target ∧ st.durationIndex < (durations.length : Int) - 1

instance (durations : List ℚ) (target : ℚ) (st : RiskState) :
    Decidable (riskGuard durations target st) := by
  unfold riskGuard; infer_instance

/-- The inner `while` of `_riskPercentiles`: advance the CDF walk until
`cdfTime` reaches the target or the durations are exhausted.  Each iteration
either advances `durationIndex` or zeroes `clippedLength`, so the loop runs
at most `durations.length + 2` times; the explicit `fuel` (always called with
that bound) never runs out. -/
def riskAdvance (durations : List ℚ) (target : ℚ) : Nat → RiskState → RiskState
  | 0, st => st
  | fuel + 1, st =>
    if riskGuard durations target st then
      riskAdvance durations target fuel (riskStepOnce durations st)
    else st

/-- One `{percentile, time}` output record of `_riskPercentiles`. -/
structure RiskEntry where
  percentile : ℚ
  time : ℚ
deriving Repr, DecidableEq

/-- The emitted time of `_riskPercentiles` (source lines 234-238): negative
intermediate results are clamped at zero before the 16 ms baseline is
added.  Note that when `remainingCount` is `0`, `ℚ` division yields `0`
where JS would yield an infinity; no walk ever emits in that state. -/
def riskTime (target : ℚ) (st : RiskState) : ℚ :=
  max 0 ((target - st.completedTime) / (st.remainingCount : ℚ)) + BASE_RESPONSE_LATENCY

/-- The `for (const percentile of percentiles)` loop of `_riskPercentiles`
(source lines 213-239): for each percentile, advance the walk to
`percentile * totalTime`, then emit the clamped time; the walk state is
carried to the next percentile (it never rewinds). -/
def riskLoop (durations : List ℚ) (totalTime : ℚ) :
    List ℚ → RiskState → List RiskEntry
  | [], _ => []
  | percentile :: rest, st =>
    let percentileTime := percentile * totalTime
    let st' := riskAdvance durations percentileTime (durations.length + 2) st
    { percentile := percentile, time := riskTime percentileTime st' } ::
      riskLoop durations totalTime rest st'

/-- `_riskPercentiles` (source lines 192-242). -/
def _riskPercentiles (durations : List ℚ) (totalTime : ℚ) (percentiles : List ℚ)
    (clippedLength : ℚ) : List RiskEntry :=
  riskLoop durations totalTime percentiles (riskInitState durations totalTime clippedLength)

/-- `getRiskToResponsiveness` (source lines 254-266).  The source sorts the
caller-supplied `percentiles` array in place before computing; the model
returns the post-call contents of that array as the second component. -/
def getRiskToResponsiveness (events : List ToplevelEvent) (startTime endTime : ℚ)
    (percentiles : List ℚ) : List RiskEntry × List ℚ :=
  let totalTime := endTime - startTime
  let sorted := percentiles.mergeSort (fun a b => a ≤ b)
  let ret := getMainThreadTopLevelEventDurations events startTime endTime
  (_riskPercentiles ret.1 totalTime sorted ret.2, sorted)

/-! Auxiliary definitions used by the theorems below. -/

/-- Termination measure of the inner `while` of `_riskPercentiles`: every
iteration either advances `durationIndex` or zeroes `clippedLength`. -/
def riskMeasure (durations : List ℚ) (st : RiskState) : Nat :=
  ((durations.length : Int) - 1 - st.durationIndex).toNat +
    (if 0 < st.clippedLength then 1 else 0)

/-- The walk state at which each percentile's entry is emitted: the state
right after `riskAdvance` for that percentile (also the state carried into
the next percentile). -/
def riskStatesFrom (durations : List ℚ) (totalTime : ℚ) :
    List ℚ → RiskState → List RiskState
  | [], _ => []
  | p :: rest, st =>
    let st' := riskAdvance durations (p * totalTime) (durations.length + 2) st
    st' :: riskStatesFrom durations totalTime rest st'

/-- Sum of the stored `duration` fields of a node's children (`none` when any
child is out of range or has a `NaN` duration). -/
def childDurationSum (tasks : List TaskNode) (n : TaskNode) : Option ℚ :=
  n.children.foldl
    (fun sum j =>
      match sum, tasks[j]? with
      | some s, some c => c.duration.map (fun d => s + d)
      | _, _ => none)
    (some 0)

/-- The containment invariant claimed of reconstructed forests: every
non-root node's half-open `[startTime, endTime)` interval lies inside its
parent's. -/
def childIntervalsContained (tasks : List TaskNode) : Prop :=
  ∀ (i p : Nat) (n pn : TaskNode), tasks[i]? = some n → n.parent = some p → tasks[p]? = some pn →
    pn.startTime ≤ n.startTime ∧
    ∀ e pe, n.endTime = some e → pn.endTime = some pe → e ≤ pe

/-- Parent indices point strictly downwards in the arena (parents are created
before their children). -/
def parentLt (tasks : List TaskNode) : Prop :=
  ∀ (i p : Nat) (n : TaskNode), tasks[i]? = some n → n.parent = some p → p < i

/-- A node built from a Complete (`X`) event carries its fixed
`ts + dur` end time. -/
def xEndFixed (tasks : List TaskNode) : Prop :=
  ∀ (i : Nat) (n : TaskNode), tasks[i]? = some n → n.event.ph = "X" →
    n.endTime = some (n.event.ts + n.event.dur.getD 0)

/-- Every child of a Complete-event node starts strictly before that
parent's (finite) end time. -/
def xParentBound (tasks : List TaskNode) : Prop :=
  ∀ (i p : Nat) (n pn : TaskNode), tasks[i]? = some n → n.parent = some p → tasks[p]? = some pn →
    pn.event.ph = "X" → ∃ pe, pn.endTime = some pe ∧ n.startTime < pe

/-- The current open task, when present, is a valid arena index. -/
def curOK (tasks : List TaskNode) (cur : Option Nat) : Prop :=
  ∀ c, cur = some c → c < tasks.length

/-- The state invariant maintained by the reconstruction scan. -/
def ReconInv (st : List TaskNode × Option Nat) : Prop :=
  parentLt st.1 ∧ xEndFixed st.1 ∧ xParentBound st.1 ∧ curOK st.1 st.2

/-- The list `getMainThreadTopLevelEvents` returns, stated as one filter-map
following the spec's description: events recognized as scheduler macrotasks,
with truthy raw duration, whose `[start, end]` interval overlaps the
inclusive window. -/
def topLevelExpected (tabTrace : TabTrace) (startTime endTime : ℚ) : List ToplevelEvent :=
  tabTrace.mainThreadEvents.filterMap (fun event =>
    if isScheduleableTask event ∧ ¬durFalsy event.dur ∧
        (event.ts - tabTrace.navigationStartEvt.ts) / 1000 ≤ endTime ∧
        startTime ≤ (event.ts + event.dur.getD 0 - tabTrace.navigationStartEvt.ts) / 1000 then
      some { start := (event.ts - tabTrace.navigationStartEvt.ts) / 1000
             end_ := (event.ts + event.dur.getD 0 - tabTrace.navigationStartEvt.ts) / 1000
             duration := event.dur.getD 0 / 1000 }
    else none)

/-- A minimal trace event for concrete runs. -/
def sampleEvent (name ph : String) (pid tid : Nat) (ts : ℚ) (dur : Option ℚ) : TraceEvent :=
  { name := name, cat := "c", ph := ph, pid := pid, tid := tid, ts := ts, dur := dur,
    args := { data := some { url := none, stackTrace := none, frames := none,
                             page := some ("F") },
              name := none } }

/-- A legacy `TracingStartedInPage` bootstrap event on pid 1 / tid 2. -/
def startedEvt : TraceEvent :=
  sampleEvent "TracingStartedInPage" "M" 1 2 0 none

/-- Two overlapping Complete events: the second starts inside the first but
ends far beyond it. -/
def overlapEvents : List TraceEvent :=
  [startedEvt, sampleEvent "A" "X" 1 2 0 (some 10), sampleEvent "B" "X" 1 2 5 (some 100)]

/-- A Begin event followed by an unrelated End event with no matching
Begin. -/
def unmatchedEndEvents : List TraceEvent :=
  [startedEvt, sampleEvent "Foo" "B" 1 2 1000 none, sampleEvent "Bar" "E" 1 2 2000 none]

/-- An End event with no open task at all. -/
def bareEndEvents : List TraceEvent :=
  [startedEvt, sampleEvent "Bar" "E" 1 2 2000 none]

/-- A well-formed two-task nested trace used by the success witnesses. -/
def nestedEvents : List TraceEvent :=
  [startedEvt, sampleEvent "A" "X" 1 2 1000 (some 1000), sampleEvent "B" "X" 1 2 1200 (some 200)]

/-- A tab trace with one scheduler macrotask and one unrelated event,
relative to a navigation start at 4000 microseconds. -/
def demoTabTrace : TabTrace :=
  { mainThreadEvents := [sampleEvent SCHEDULABLE_TASK_TITLE "X" 1 2 5000 (some 1000),
                         sampleEvent "other" "X" 1 2 6000 (some 1000)],
    navigationStartEvt := sampleEvent "navigationStart" "I" 1 2 4000 none }

/-- The raw forest the reconstructor builds from `nestedEvents`. -/
def nestedTasksRaw : List TaskNode :=
  [{ event := sampleEvent "A" "X" 1 2 1000 (some 1000),
     startTime := 1000, endTime := some 2000, parent := none, children := [1],
     group := taskGroupsOther, attributableURL := none, duration := none, selfTime := none },
   { event := sampleEvent "B" "X" 1 2 1200 (some 200),
     startTime := 1200, endTime := some 1400, parent := some 0, children := [],
     group := taskGroupsOther, attributableURL := none, duration := none, selfTime := none }]

/-- The annotated, rescaled forest `getMainThreadTasks` produces from
`nestedEvents` with an empty name-to-group table. -/
def nestedTasksOut : List TaskNode :=
  [{ event := sampleEvent "A" "X" 1 2 1000 (some 1000),
     startTime := 0, endTime := some 1, parent := none, children := [1],
     group := taskGroupsOther, attributableURL := none,
     duration := some 1, selfTime := some (4/5) },
   { event := sampleEvent "B" "X" 1 2 1200 (some 200),
     startTime := 1/5, endTime := some (2/5), parent := some 0, children := [],
     group := taskGroupsOther, attributableURL := none,
     duration := some (1/5), selfTime := some (1/5) }]

/-- The forest the reconstructor builds from `overlapEvents`: the second
Complete event nests as a child of the first (its start, 5, falls before the
parent's end, 10) but runs until 105, far past its parent's end. -/
def overlapTasks : List TaskNode :=
  [{ event := sampleEvent "A" "X" 1 2 0 (some 10),
     startTime := 0, endTime := some 10, parent := none, children := [1],
     group := taskGroupsOther, attributableURL := none, duration := none, selfTime := none },
   { event := sampleEvent "B" "X" 1 2 5 (some 100),
     startTime := 5, endTime := some 105, parent := some 0, children := [],
     group := taskGroupsOther, attributableURL := none, duration := none, selfTime := none }]

/-- The pre-clamp, pre-baseline value the walk emits for target `t` at
state `st` (so `riskTime t st = riskValue t st + BASE_RESPONSE_LATENCY`). -/
def riskValue (t : ℚ) (st : RiskState) : ℚ :=
  max 0 ((t - st.completedTime) / (st.remainingCount : ℚ))

/-- One while the clipped pseudo-duration is still pending (not yet loaded),
zero afterwards; the `remainingCount` bookkeeping of the walk subtracts it. -/
def clipFlag (st : RiskState) : Int :=
  if 0 < st.clippedLength then 1 else 0

/-- The state invariant of the `_riskPercentiles` walk, for ascending
nonnegative durations: `cdfTime` is always
`completedTime + |duration| * remainingCount`; `durationIndex` stays in
`[-1, length - 1]`; a pending clipped length is positive only while a
strictly larger duration lies ahead (so the clip branch eventually fires);
while the clip is pending the loaded duration never exceeds it; and
`remainingCount` counts the initial pseudo-duration (while unconsumed), the
unconsumed real durations, minus one for a pending clip and one for a
loaded-but-unconsumed clip (`duration < 0`). -/
def RiskInv (durations : List ℚ) (st : RiskState) : Prop :=
  st.cdfTime = st.completedTime + |st.duration| * (st.remainingCount : ℚ) ∧
  -1 ≤ st.durationIndex ∧
  st.durationIndex ≤ (durations.length : Int) - 1 ∧
  0 ≤ st.clippedLength ∧
  (0 < st.clippedLength →
    st.durationIndex ≤ (durations.length : Int) - 2 ∧
    st.clippedLength < durations.getD (durations.length - 1) 0) ∧
  (0 < st.clippedLength → 0 ≤ st.duration → st.duration ≤ st.clippedLength) ∧
  (0 ≤ st.duration → st.durationIndex = -1 →
    st.remainingCount = (durations.length : Int) + 1 - clipFlag st) ∧
  (0 ≤ st.duration → 0 ≤ st.durationIndex →
    st.remainingCount = (durations.length : Int) - st.durationIndex - clipFlag st) ∧
  (st.duration < 0 →
    st.remainingCount = (durations.length : Int) - st.durationIndex - 2 ∧
    st.clippedLength = 0 ∧ st.durationIndex ≤ (durations.length : Int) - 2)

/-- The value bound carried along the walk while advancing towards a later
target `T'`: `v` (a previously emitted value) stays below the value that
would be emitted now, below any pending clipped length, and below the
magnitude of a loaded clip pseudo-duration. -/
def RiskCarry (v T' : ℚ) (st : RiskState) : Prop :=
  v ≤ riskValue T' st ∧
  (0 < st.clippedLength → v ≤ st.clippedLength) ∧
  (st.duration < 0 → v ≤ -st.duration)

/-! Theorems. -/

theorem riskStepOnce_measure (durations : List ℚ) (st : RiskState)
    (hidx : st.durationIndex < (durations.length : Int) - 1) :
    riskMeasure durations (riskStepOnce durations st) < riskMeasure durations st := by
  simp only [riskStepOnce, riskMeasure]
  by_cases hc : 0 < st.clippedLength ∧
      st.clippedLength < durations.getD (st.durationIndex + 1).toNat 0
  · rw [if_pos hc]
    simp only
    rw [if_pos hc.1, if_neg (lt_irrefl (0 : ℚ))]
    omega
  · rw [if_neg hc]
    simp only
    by_cases h0 : 0 < st.clippedLength
    · simp only [if_pos h0]; omega
    · simp only [if_neg h0]; omega

theorem riskGuard_measure_pos (durations : List ℚ) (target : ℚ) (st : RiskState)
    (h : riskGuard durations target st) : 1 ≤ riskMeasure durations st := by
  obtain ⟨-, hidx⟩ := h
  simp only [riskMeasure]
  have h1 : (1 : Int) ≤ (durations.length : Int) - 1 - st.durationIndex := by omega
  by_cases h0 : 0 < st.clippedLength
  · rw [if_pos h0]; omega
  · rw [if_neg h0]; omega

theorem riskAdvance_not_guard (durations : List ℚ) (target : ℚ) (fuel : Nat) :
    ∀ st : RiskState, riskMeasure durations st ≤ fuel →
      ¬ riskGuard durations target (riskAdvance durations target fuel st) := by
  induction fuel with
  | zero =>
    intro st h hg
    simp only [riskAdvance] at hg
    have := riskGuard_measure_pos durations target st hg
    omega
  | succ fuel ih =>
    intro st h
    rw [riskAdvance]
    split_ifs with hg
    · exact ih _ (by have := riskStepOnce_measure durations st hg.2; omega)
    · exact hg

theorem riskStepOnce_idx_ge (durations : List ℚ) (st : RiskState)
    (h : -1 ≤ st.durationIndex) : -1 ≤ (riskStepOnce durations st).durationIndex := by
  simp only [riskStepOnce]
  split_ifs <;> simp only <;> omega

theorem riskAdvance_idx_ge (durations : List ℚ) (target : ℚ) (fuel : Nat) :
    ∀ st : RiskState, -1 ≤ st.durationIndex →
      -1 ≤ (riskAdvance durations target fuel st).durationIndex := by
  induction fuel with
  | zero => intro st h; simpa only [riskAdvance] using h
  | succ fuel ih =>
    intro st h
    rw [riskAdvance]
    split_ifs with hg
    · exact ih _ (riskStepOnce_idx_ge durations st h)
    · exact h

theorem riskMeasure_le (durations : List ℚ) (st : RiskState)
    (h : -1 ≤ st.durationIndex) : riskMeasure durations st ≤ durations.length + 2 := by
  simp only [riskMeasure]
  by_cases h0 : 0 < st.clippedLength
  · rw [if_pos h0]; omega
  · rw [if_neg h0]; omega

theorem riskLoop_length (durations : List ℚ) (totalTime : ℚ) :
    ∀ (ps : List ℚ) (st : RiskState),
      (riskLoop durations totalTime ps st).length = ps.length := by
  intro ps
  induction ps with
  | nil => intro st; rfl
  | cons p rest ih => intro st; simp [riskLoop, ih]

theorem riskLoop_time_ge (durations : List ℚ) (totalTime : ℚ) :
    ∀ (ps : List ℚ) (st : RiskState),
      ∀ e ∈ riskLoop durations totalTime ps st, BASE_RESPONSE_LATENCY ≤ e.time := by
  intro ps
  induction ps with
  | nil => intro st e he; simp [riskLoop] at he
  | cons p rest ih =>
    intro st e he
    simp only [riskLoop, List.mem_cons] at he
    rcases he with rfl | he
    · simp only [riskTime]
      have : (0 : ℚ) ≤ max 0 ((p * totalTime -
          (riskAdvance durations (p * totalTime) (durations.length + 2) st).completedTime) /
          (((riskAdvance durations (p * totalTime) (durations.length + 2) st).remainingCount : ℚ))) :=
        le_max_left 0 _
      linarith
    · exact ih _ e he

theorem riskLoop_get (durations : List ℚ) (totalTime : ℚ) :
    ∀ (ps : List ℚ) (st0 : RiskState), -1 ≤ st0.durationIndex →
      ∀ (k : Nat) (p : ℚ) (st : RiskState),
        ps[k]? = some p →
        (riskStatesFrom durations totalTime ps st0)[k]? = some st →
        (riskLoop durations totalTime ps st0)[k]? =
            some { percentile := p, time := riskTime (p * totalTime) st } ∧
          ¬ riskGuard durations (p * totalTime) st ∧ -1 ≤ st.durationIndex := by
  intro ps
  induction ps with
  | nil => intro st0 h0 k p st hp; simp at hp
  | cons q rest ih =>
    intro st0 h0 k p st hp hst
    match k with
    | 0 =>
      simp only [List.getElem?_cons_zero, Option.some.injEq] at hp
      simp only [riskStatesFrom, List.getElem?_cons_zero, Option.some.injEq] at hst
      subst hp
      subst hst
      refine ⟨by simp [riskLoop], ?_, ?_⟩
      · exact riskAdvance_not_guard durations (q * totalTime) (durations.length + 2) st0
          (by have := riskMeasure_le durations st0 h0; omega)
      · exact riskAdvance_idx_ge durations (q * totalTime) (durations.length + 2) st0 h0
    | k + 1 =>
      simp only [List.getElem?_cons_succ] at hp
      simp only [riskStatesFrom, List.getElem?_cons_succ] at hst
      have hnext : -1 ≤ (riskAdvance durations (q * totalTime) (durations.length + 2)
          st0).durationIndex :=
        riskAdvance_idx_ge durations (q * totalTime) (durations.length + 2) st0 h0
      have := ih _ hnext k p st hp hst
      simpa [riskLoop] using this

/-- C3: each entry `_riskPercentiles` returns carries the requested
percentile and the time
`max 0 ((percentile * totalTime - completedTime) / remainingCount) +
BASE_RESPONSE_LATENCY` computed at the walk state reached for that
percentile; the walk stopped advancing only because its cumulative
`cdfTime` reached `percentile * totalTime` (or the durations were
exhausted); `BASE_RESPONSE_LATENCY` is the fixed 16 ms; and, the clamp
running before the baseline is added, every returned time is at least
16 ms. -/
theorem riskPercentiles_formula (durations : List ℚ) (totalTime : ℚ) (percentiles : List ℚ)
    (clippedLength : ℚ) :
    BASE_RESPONSE_LATENCY = 16 ∧
    (_riskPercentiles durations totalTime percentiles clippedLength).length =
      percentiles.length ∧
    (∀ e ∈ _riskPercentiles durations totalTime percentiles clippedLength,
        BASE_RESPONSE_LATENCY ≤ e.time) ∧
    ∀ (k : Nat) (p : ℚ) (st : RiskState), percentiles[k]? = some p →
      (riskStatesFrom durations totalTime percentiles
          (riskInitState durations totalTime clippedLength))[k]? = some st →
      (_riskPercentiles durations totalTime percentiles clippedLength)[k]? =
          some { percentile := p,
                 time := max 0 ((p * totalTime - st.completedTime) /
                     (st.remainingCount : ℚ)) + BASE_RESPONSE_LATENCY } ∧
        ¬ riskGuard durations (p * totalTime) st := by
  refine ⟨rfl, riskLoop_length durations totalTime percentiles _,
    riskLoop_time_ge durations totalTime percentiles _, ?_⟩
  intro k p st hp hst
  have h0 : -1 ≤ (riskInitState durations totalTime clippedLength).durationIndex := by
    simp [riskInitState]
  have := riskLoop_get durations totalTime percentiles _ h0 k p st hp hst
  exact ⟨this.1, this.2.1⟩

/-- C3 witness: the spec's scenario, durations 10/20/30 ms in a 100 ms
window, 50th percentile: the walk stops at completed time 40 with 3 tasks
remaining, giving `max 0 ((50 - 40) / 3) + 16 = 58/3`. -/
theorem riskPercentiles_formula_witness :
    ([(1 : ℚ)/2][0]? = some ((1 : ℚ)/2)) ∧
    (_riskPercentiles [10, 20, 30] 100 [1/2] 0)[0]? =
      some { percentile := (1 : ℚ)/2, time := 58/3 } := by
  have hp : ([(1 : ℚ)/2][0]? = some ((1 : ℚ)/2)) := rfl
  have hst : (riskStatesFrom [10, 20, 30] 100 [1/2]
      (riskInitState [10, 20, 30] 100 0))[0]? =
      some { completedTime := 40, duration := 10, cdfTime := 70, durationIndex := 0,
             remainingCount := 3, clippedLength := 0 } := by
    norm_num [riskStatesFrom, riskInitState, riskAdvance, riskGuard, riskStepOnce]
  have h := (riskPercentiles_formula [10, 20, 30] 100 [1/2] 0).2.2.2 0 (1/2) _ hp hst
  refine ⟨hp, ?_⟩
  rw [h.1]
  norm_num [BASE_RESPONSE_LATENCY]

theorem riskLoop_map_percentile (durations : List ℚ) (totalTime : ℚ) :
    ∀ (ps : List ℚ) (st : RiskState),
      (riskLoop durations totalTime ps st).map RiskEntry.percentile = ps := by
  intro ps
  induction ps with
  | nil => intro st; rfl
  | cons p rest ih => intro st; simp [riskLoop, ih]

/-- C10: `getRiskToResponsiveness` sorts the caller-supplied percentiles
array ascending before computing (the second component models the array's
post-call contents: a permutation of the input, sorted), and consequently
the returned entries are in ascending percentile order — their percentile
components are exactly that sorted array — even when the argument is
supplied unsorted. -/
theorem getRiskToResponsiveness_sorts (events : List ToplevelEvent)
    (startTime endTime : ℚ) (percentiles : List ℚ) :
    ((getRiskToResponsiveness events startTime endTime percentiles).2).Perm percentiles ∧
    List.Sorted (fun a b => a ≤ b)
      (getRiskToResponsiveness events startTime endTime percentiles).2 ∧
    (getRiskToResponsiveness events startTime endTime percentiles).1.map RiskEntry.percentile =
      (getRiskToResponsiveness events startTime endTime percentiles).2 := by
  refine ⟨?_, ?_, ?_⟩
  · simpa [getRiskToResponsiveness] using List.mergeSort_perm percentiles (fun a b => a ≤ b)
  · have h := @List.sorted_mergeSort ℚ (fun a b : ℚ => a ≤ b)
      (fun a b c hab hbc => by
        simp only [decide_eq_true_eq] at hab hbc ⊢; exact le_trans hab hbc)
      (fun a b => by
        simp only [Bool.or_eq_true, decide_eq_true_eq]; exact le_total a b)
      percentiles
    have : List.Pairwise (fun a b : ℚ => a ≤ b)
        (percentiles.mergeSort (fun a b => a ≤ b)) := by
      refine h.imp ?_
      intro a b hab
      simpa only [decide_eq_true_eq] using hab
    simpa [getRiskToResponsiveness, List.Sorted] using this
  · simp [getRiskToResponsiveness, riskLoop_map_percentile, _riskPercentiles]

theorem topLevel_foldl_eq (tabTrace : TabTrace) (startTime endTime : ℚ) :
    ∀ (events : List TraceEvent) (acc : List ToplevelEvent),
      events.foldl
        (fun acc event =>
          if !isScheduleableTask event || durFalsy event.dur then acc
          else
            let start := (event.ts - tabTrace.navigationStartEvt.ts) / 1000
            let end_ := (event.ts + event.dur.getD 0 - tabTrace.navigationStartEvt.ts) / 1000
            if start > endTime ∨ end_ < startTime then acc
            else acc ++ [{ start := start, end_ := end_,
                           duration := event.dur.getD 0 / 1000 }])
        acc =
      acc ++ (events.filterMap (fun event =>
        if isScheduleableTask event ∧ ¬durFalsy event.dur ∧
            (event.ts - tabTrace.navigationStartEvt.ts) / 1000 ≤ endTime ∧
            startTime ≤ (event.ts + event.dur.getD 0 - tabTrace.navigationStartEvt.ts) / 1000 then
          some { start := (event.ts - tabTrace.navigationStartEvt.ts) / 1000
                 end_ := (event.ts + event.dur.getD 0 - tabTrace.navigationStartEvt.ts) / 1000
                 duration := event.dur.getD 0 / 1000 }
        else none)) := by
  intro events
  induction events with
  | nil => intro acc; simp
  | cons e rest ih =>
    intro acc
    simp only [List.foldl_cons, List.filterMap_cons]
    by_cases h1 : isScheduleableTask e
    · by_cases h2 : durFalsy e.dur
      · rw [if_pos (by simp [h1, h2]), if_neg (by simp [h2]), ih]
      · by_cases h3 : (e.ts - tabTrace.navigationStartEvt.ts) / 1000 > endTime ∨
            (e.ts + e.dur.getD 0 - tabTrace.navigationStartEvt.ts) / 1000 < startTime
        · have hg : ¬(isScheduleableTask e = true ∧ ¬durFalsy e.dur = true ∧
              (e.ts - tabTrace.navigationStartEvt.ts) / 1000 ≤ endTime ∧
              startTime ≤ (e.ts + e.dur.getD 0 - tabTrace.navigationStartEvt.ts) / 1000) := by
            rintro ⟨-, -, hle, hge⟩
            rcases h3 with h | h
            · exact absurd hle (not_le.mpr h)
            · exact absurd hge (not_le.mpr h)
          rw [if_neg (by simp [h1, h2]), if_pos h3, if_neg hg, ih]
        · push_neg at h3
          rw [if_neg (by simp [h1, h2]), if_neg (by push_neg; exact h3),
            if_pos ⟨h1, h2, h3.1, h3.2⟩, ih]
          simp
    · rw [if_pos (by simp [h1]), if_neg (by simp [h1]), ih]

/-- C8: `getMainThreadTopLevelEvents` returns exactly the
`{start, end, duration}` records (ms relative to navigation start) of the
main-thread events whose name is one of the two scheduler-macrotask names,
whose raw duration is truthy (present and nonzero), and whose `[start, end]`
interval overlaps the inclusive window `[startTime, endTime]` — in ascending
start order whenever the input event list is sorted by timestamp (which the
source assumes: "mainThreadEvents is already sorted by event start") — and
when no such event exists it fails fatally instead of ever returning an
empty list. -/
theorem getMainThreadTopLevelEvents_spec (tabTrace : TabTrace) (startTime endTime : ℚ) :
    (topLevelExpected tabTrace startTime endTime ≠ [] →
      getMainThreadTopLevelEvents tabTrace startTime endTime =
        Except.ok (topLevelExpected tabTrace startTime endTime)) ∧
    (topLevelExpected tabTrace startTime endTime = [] →
      getMainThreadTopLevelEvents tabTrace startTime endTime =
        Except.error ("Could not find any top level events")) ∧
    (∀ l, getMainThreadTopLevelEvents tabTrace startTime endTime = Except.ok l → l ≠ []) ∧
    (List.Pairwise (fun a b => a.ts ≤ b.ts) tabTrace.mainThreadEvents →
      List.Pairwise (fun a b => a.start ≤ b.start)
        (topLevelExpected tabTrace startTime endTime)) := by
  have hfold := topLevel_foldl_eq tabTrace startTime endTime tabTrace.mainThreadEvents []
  have hbody : getMainThreadTopLevelEvents tabTrace startTime endTime =
      (if (topLevelExpected tabTrace startTime endTime).isEmpty then
        Except.error ("Could not find any top level events")
      else Except.ok (topLevelExpected tabTrace startTime endTime)) := by
    simp only [getMainThreadTopLevelEvents, topLevelExpected]
    rw [hfold]
    simp
  refine ⟨?_, ?_, ?_, ?_⟩
  · intro hne
    rw [hbody, if_neg (by simpa [List.isEmpty_iff] using hne)]
  · intro he
    rw [hbody, if_pos (by simpa [List.isEmpty_iff] using he)]
  · intro l hl hnil
    subst hnil
    rw [hbody] at hl
    by_cases he : (topLevelExpected tabTrace startTime endTime).isEmpty
    · rw [if_pos he] at hl; cases hl
    · rw [if_neg he] at hl
      injection hl with h
      rw [h] at he
      simp at he
  · intro hsorted
    simp only [topLevelExpected]
    rw [List.pairwise_filterMap]
    refine hsorted.imp ?_
    intro a b hab r hr r' hr'
    by_cases ha : isScheduleableTask a ∧ ¬durFalsy a.dur ∧
        (a.ts - tabTrace.navigationStartEvt.ts) / 1000 ≤ endTime ∧
        startTime ≤ (a.ts + a.dur.getD 0 - tabTrace.navigationStartEvt.ts) / 1000
    · rw [if_pos ha] at hr
      by_cases hb : isScheduleableTask b ∧ ¬durFalsy b.dur ∧
          (b.ts - tabTrace.navigationStartEvt.ts) / 1000 ≤ endTime ∧
          startTime ≤ (b.ts + b.dur.getD 0 - tabTrace.navigationStartEvt.ts) / 1000
      · rw [if_pos hb] at hr'
        simp only [Option.mem_def, Option.some.injEq] at hr hr'
        subst hr
        subst hr'
        simp only
        linarith
      · rw [if_neg hb] at hr'; cases hr'
    · rw [if_neg ha] at hr
      cases hr


theorem runEvents_append (pid tid : Nat) :
    ∀ (l1 l2 : List TraceEvent) (st : List TaskNode × Option Nat),
      runEvents pid tid (l1 ++ l2) st =
        match runEvents pid tid l1 st with
        | Except.error m => Except.error m
        | Except.ok st' => runEvents pid tid l2 st' := by
  intro l1
  induction l1 with
  | nil => intro l2 st; rfl
  | cons e rest ih =>
    intro l2 st
    simp only [List.cons_append, runEvents]
    cases stepEvent pid tid st e with
    | error m => rfl
    | ok st' => exact ih l2 st'

/-- C5: an End event that, after the ascend-on-timestamp rule, finds no
current open task, and an End event whose current open task was not opened
by a Begin event, both abort the scan with the fatal
"Fatal trace logic error"; the error propagates through the event loop and
out of `_createTasksFromEvents`, so no partial forest is returned. -/
theorem endEvent_fatal (pid tid : Nat) (tasks : List TaskNode) (cur : Option Nat)
    (e : TraceEvent) (hpid : e.pid = pid) (htid : e.tid = tid) (hph : e.ph = "E") :
    (ascend tasks e.ts tasks.length cur = none →
      stepEvent pid tid (tasks, cur) e = Except.error ("Fatal trace logic error")) ∧
    (∀ (i : Nat) (n : TaskNode), ascend tasks e.ts tasks.length cur = some i →
      tasks[i]? = some n → n.event.ph ≠ "B" →
      stepEvent pid tid (tasks, cur) e = Except.error ("Fatal trace logic error")) ∧
    (∀ (pre suf : List TraceEvent),
      runEvents pid tid pre ([], none) = Except.ok (tasks, cur) →
      stepEvent pid tid (tasks, cur) e = Except.error ("Fatal trace logic error") →
      runEvents pid tid (pre ++ e :: suf) ([], none) =
        Except.error ("Fatal trace logic error")) ∧
    (∀ (events : List TraceEvent) (startEvt : TraceEvent),
      findTracingStartedEvt events = Except.ok startEvt →
      runEvents startEvt.pid startEvt.tid events ([], none) =
        Except.error ("Fatal trace logic error") →
      _createTasksFromEvents events = Except.error ("Fatal trace logic error")) := by
  refine ⟨?_, ?_, ?_, ?_⟩
  · intro ha
    simp only [stepEvent]
    rw [if_neg (by simp [hpid, htid]), if_neg (by simp [hph])]
    simp only [ha]
    rw [if_pos hph]
  · intro i n ha hn hnb
    simp only [stepEvent]
    rw [if_neg (by simp [hpid, htid]), if_neg (by simp [hph])]
    simp only [ha, hn, if_neg (show ¬(e.ph = "X" ∨ e.ph = "B") by simp [hph])]
    rw [if_pos hnb]
  · intro pre suf hpre hstep
    rw [runEvents_append]
    rw [hpre]
    simp only [runEvents, hstep]
  · intro events startEvt hfind hrun
    simp only [_createTasksFromEvents, hfind, hrun]

/-- C5 witness: a lone End event on the located thread, with no open task,
makes the whole reconstruction fail with "Fatal trace logic error". -/
theorem endEvent_fatal_witness :
    (sampleEvent "Bar" "E" 1 2 2000 none).ph = "E" ∧
    ascend [] (sampleEvent "Bar" "E" 1 2 2000 none).ts 0 none = none ∧
    _createTasksFromEvents bareEndEvents = Except.error ("Fatal trace logic error") := by
  have h := endEvent_fatal 1 2 [] none (sampleEvent "Bar" "E" 1 2 2000 none) rfl rfl rfl
  have hstep := h.1 rfl
  have hrun : runEvents 1 2 bareEndEvents ([], none) =
      Except.error ("Fatal trace logic error") := by
    have hp : runEvents 1 2 [startedEvt] ([], none) = Except.ok ([], none) := rfl
    have := h.2.2.1 [startedEvt] [] hp hstep
    simpa [bareEndEvents] using this
  refine ⟨rfl, rfl, ?_⟩
  exact h.2.2.2 bareEndEvents startedEvt rfl hrun

/-- C6 counterexample: a Begin event ("Foo") immediately followed on the
same process and thread by an unrelated End event ("Bar") that has no
matching Begin does NOT raise a structural trace error: the reconstruction
succeeds, silently closing the open Begin task at the unrelated End event's
timestamp. -/
theorem unmatchedEnd_not_fatal :
    _createTasksFromEvents unmatchedEndEvents =
      Except.ok [{ event := sampleEvent "Foo" "B" 1 2 1000 none,
                   startTime := 1000, endTime := some 2000, parent := none, children := [],
                   group := taskGroupsOther, attributableURL := none,
                   duration := none, selfTime := none }] := by
  rfl

/-- C6 (amended): the reconstructor performs no name matching on End events.
An End event on the located thread whose current open task (after ascending)
was opened by a Begin event — related or not — is accepted: it closes that
task, setting its `endTime` to the End event's timestamp and making its
parent current.  The fatal "Fatal trace logic error" is raised only when
there is no open task at all or when the open task came from a non-Begin
event. -/
theorem endEvent_closes_begin (pid tid : Nat) (tasks : List TaskNode) (cur : Option Nat)
    (e : TraceEvent) (i : Nat) (n : TaskNode)
    (hpid : e.pid = pid) (htid : e.tid = tid) (hph : e.ph = "E")
    (ha : ascend tasks e.ts tasks.length cur = some i)
    (hn : tasks[i]? = some n) (hb : n.event.ph = "B") :
    stepEvent pid tid (tasks, cur) e =
      Except.ok (modifyAt tasks i (fun m => { m with endTime := some e.ts }), n.parent) := by
  simp only [stepEvent]
  rw [if_neg (by simp [hpid, htid]), if_neg (by simp [hph])]
  simp only [ha, hn, if_neg (show ¬(e.ph = "X" ∨ e.ph = "B") by simp [hph])]
  rw [if_neg (by simp [hb])]

/-- C6 amended-claim witness: the unrelated "Bar" End event closes the open
"Foo" Begin task. -/
theorem endEvent_closes_begin_witness :
    ascend [_createNewTaskNode (sampleEvent "Foo" "B" 1 2 1000 none) none]
        (sampleEvent "Bar" "E" 1 2 2000 none).ts 1 (some 0) = some 0 ∧
    stepEvent 1 2 ([_createNewTaskNode (sampleEvent "Foo" "B" 1 2 1000 none) none], some 0)
        (sampleEvent "Bar" "E" 1 2 2000 none) =
      Except.ok
        (modifyAt [_createNewTaskNode (sampleEvent "Foo" "B" 1 2 1000 none) none] 0
          (fun m => { m with endTime := some (sampleEvent "Bar" "E" 1 2 2000 none).ts }),
         (_createNewTaskNode (sampleEvent "Foo" "B" 1 2 1000 none) none).parent) := by
  refine ⟨rfl, ?_⟩
  exact endEvent_closes_begin 1 2 _ (some 0) _ 0 _ rfl rfl rfl rfl rfl rfl

theorem modifyAt_length (tasks : List TaskNode) (i : Nat) (f : TaskNode → TaskNode) :
    (modifyAt tasks i f).length = tasks.length := by
  unfold modifyAt
  cases h : tasks[i]? with
  | none => rfl
  | some n => simp [List.length_set]

theorem getElem?_modifyAt_self (tasks : List TaskNode) (i : Nat) (f : TaskNode → TaskNode)
    (n : TaskNode) (h : tasks[i]? = some n) :
    (modifyAt tasks i f)[i]? = some (f n) := by
  unfold modifyAt
  rw [h, List.getElem?_set, if_pos rfl, if_pos (List.getElem?_eq_some.mp h).1]

theorem getElem?_modifyAt_ne (tasks : List TaskNode) (i : Nat) (f : TaskNode → TaskNode)
    (j : Nat) (h : i ≠ j) : (modifyAt tasks i f)[j]? = tasks[j]? := by
  unfold modifyAt
  cases hi : tasks[i]? with
  | none => rfl
  | some n => rw [List.getElem?_set, if_neg h]

theorem getElem?_append_lt (l : List TaskNode) (x : TaskNode) (j : Nat) (h : j < l.length) :
    (l ++ [x])[j]? = l[j]? := by
  rw [List.getElem?_append, if_pos h]

theorem getElem?_append_len (l : List TaskNode) (x : TaskNode) :
    (l ++ [x])[l.length]? = some x := by
  rw [List.getElem?_append, if_neg (lt_irrefl _)]
  simp

theorem ascend_some (tasks : List TaskNode) (ts : ℚ) (hplt : parentLt tasks) :
    ∀ (fuel : Nat) (cur : Option Nat) (i : Nat),
      (∀ c, cur = some c → c < tasks.length ∧ c + 1 ≤ fuel) →
      ascend tasks ts fuel cur = some i →
      ∃ n, tasks[i]? = some n ∧ i < tasks.length ∧
        (n.endTime = none ∨ ∃ e, n.endTime = some e ∧ ts < e) := by
  intro fuel
  induction fuel with
  | zero =>
    intro cur i h ha
    match cur with
    | none => cases ha
    | some c => exact absurd (h c rfl).2 (by omega)
  | succ fuel ih =>
    intro cur i h ha
    match cur with
    | none => cases ha
    | some c =>
      have hc := h c rfl
      simp only [ascend] at ha
      cases hn : tasks[c]? with
      | none => rw [List.getElem?_eq_getElem hc.1] at hn; cases hn
      | some n =>
        simp only [hn] at ha
        cases he : n.endTime with
        | none =>
          simp only [he] at ha
          injection ha with ha
          subst ha
          exact ⟨n, hn, hc.1, Or.inl he⟩
        | some e =>
          simp only [he] at ha
          by_cases hle : e ≤ ts
          · rw [if_pos hle] at ha
            refine ih n.parent i ?_ ha
            intro p hp
            have hpi := hplt c p n hn hp
            exact ⟨lt_trans hpi hc.1, by omega⟩
          · rw [if_neg hle] at ha
            injection ha with ha
            subst ha
            exact ⟨n, hn, hc.1, Or.inr ⟨e, he, lt_of_not_le hle⟩⟩

theorem stepEvent_inv (pid tid : Nat) (tasks : List TaskNode) (cur : Option Nat)
    (e : TraceEvent) (st' : List TaskNode × Option Nat)
    (hstep : stepEvent pid tid (tasks, cur) e = Except.ok st')
    (hinv : ReconInv (tasks, cur)) : ReconInv st' := by
  have hinv' : parentLt tasks ∧ xEndFixed tasks ∧ xParentBound tasks ∧ curOK tasks cur := hinv
  obtain ⟨hplt, hxe, hxp, hcur⟩ := hinv'
  simp only [stepEvent] at hstep
  by_cases hfil : e.pid ≠ pid ∨ e.tid ≠ tid
  · rw [if_pos hfil] at hstep
    injection hstep with hstep
    subst hstep
    exact ⟨hplt, hxe, hxp, hcur⟩
  · rw [if_neg hfil] at hstep
    by_cases hph : e.ph ≠ "X" ∧ e.ph ≠ "B" ∧ e.ph ≠ "E"
    · rw [if_pos hph] at hstep
      injection hstep with hstep
      subst hstep
      exact ⟨hplt, hxe, hxp, hcur⟩
    · rw [if_neg hph] at hstep
      cases ha : ascend tasks e.ts tasks.length cur with
      | none =>
        rw [ha] at hstep
        simp only at hstep
        by_cases hE : e.ph = "E"
        · rw [if_pos hE] at hstep; cases hstep
        · rw [if_neg hE] at hstep
          injection hstep with hstep
          subst hstep
          refine ⟨?_, ?_, ?_, ?_⟩
          · intro j p n hj hp
            rcases lt_or_ge j tasks.length with hjl | hjl
            · exact hplt j p n (by rwa [getElem?_append_lt tasks _ j hjl] at hj) hp
            · have hj' : j = tasks.length := by
                have := (List.getElem?_eq_some.mp hj).1
                simp only [List.length_append, List.length_cons, List.length_nil] at this
                omega
              subst hj'
              rw [getElem?_append_len] at hj
              injection hj with hj
              subst hj
              cases hp
          · intro j n hj hX
            rcases lt_or_ge j tasks.length with hjl | hjl
            · exact hxe j n (by rwa [getElem?_append_lt tasks _ j hjl] at hj) hX
            · have hj' : j = tasks.length := by
                have := (List.getElem?_eq_some.mp hj).1
                simp only [List.length_append, List.length_cons, List.length_nil] at this
                omega
              subst hj'
              rw [getElem?_append_len] at hj
              injection hj with hj
              subst hj
              simp only [_createNewTaskNode] at hX ⊢
              rw [if_pos hX]
          · intro j p n pn hj hp hpn hX
            rcases lt_or_ge j tasks.length with hjl | hjl
            · rw [getElem?_append_lt tasks _ j hjl] at hj
              have hpj := hplt j p n hj hp
              rw [getElem?_append_lt tasks _ p (lt_trans hpj hjl)] at hpn
              exact hxp j p n pn hj hp hpn hX
            · have hj' : j = tasks.length := by
                have := (List.getElem?_eq_some.mp hj).1
                simp only [List.length_append, List.length_cons, List.length_nil] at this
                omega
              subst hj'
              rw [getElem?_append_len] at hj
              injection hj with hj
              subst hj
              cases hp
          · intro c hc
            injection hc with hc
            subst hc
            simp
      | some i =>
        rw [ha] at hstep
        simp only at hstep
        obtain ⟨pn, hpn, hilt, hstop⟩ :=
          ascend_some tasks e.ts hplt tasks.length cur i
            (fun c hc => ⟨hcur c hc, by have := hcur c hc; omega⟩) ha
        by_cases hXB : e.ph = "X" ∨ e.ph = "B"
        · rw [if_pos hXB] at hstep
          injection hstep with hstep
          subst hstep
          have hT2i : (tasks ++ [_createNewTaskNode e (some i)])[i]? = some pn :=
            (getElem?_append_lt tasks _ i hilt).trans hpn
          have hget : ∀ j : Nat,
              (modifyAt (tasks ++ [_createNewTaskNode e (some i)]) i
                (fun n => { n with children := n.children ++ [tasks.length] }))[j]? =
              if j = i then some { pn with children := pn.children ++ [tasks.length] }
              else if j = tasks.length then some (_createNewTaskNode e (some i))
              else tasks[j]? := by
            intro j
            by_cases hji : j = i
            · rw [hji, if_pos rfl]
              exact getElem?_modifyAt_self _ i _ pn hT2i
            · rw [if_neg hji, getElem?_modifyAt_ne _ i _ j (fun h => hji h.symm)]
              by_cases hjl : j = tasks.length
              · subst hjl
                rw [if_pos rfl, getElem?_append_len]
              · rw [if_neg hjl]
                rcases lt_or_ge j tasks.length with hlt | hge
                · exact getElem?_append_lt tasks _ j hlt
                · have hj2 : (tasks ++ [_createNewTaskNode e (some i)]).length ≤ j := by
                    simp only [List.length_append, List.length_cons, List.length_nil]
                    omega
                  rw [List.getElem?_eq_none hj2, List.getElem?_eq_none (by omega)]
          refine ⟨?_, ?_, ?_, ?_⟩
          · intro j p n hj hp
            rw [hget j] at hj
            by_cases hji : j = i
            · rw [if_pos hji] at hj
              injection hj with hj
              subst hj
              subst hji
              exact hplt j p pn hpn hp
            · rw [if_neg hji] at hj
              by_cases hjl : j = tasks.length
              · rw [if_pos hjl] at hj
                injection hj with hj
                subst hj
                simp only [_createNewTaskNode, Option.some.injEq] at hp
                omega
              · rw [if_neg hjl] at hj
                exact hplt j p n hj hp
          · intro j n hj hX
            rw [hget j] at hj
            by_cases hji : j = i
            · rw [if_pos hji] at hj
              injection hj with hj
              subst hj
              exact hxe i pn hpn hX
            · rw [if_neg hji] at hj
              by_cases hjl : j = tasks.length
              · rw [if_pos hjl] at hj
                injection hj with hj
                subst hj
                simp only [_createNewTaskNode] at hX ⊢
                rw [if_pos hX]
              · rw [if_neg hjl] at hj
                exact hxe j n hj hX
          · intro j p n pn' hj hp hpn' hX
            rw [hget j] at hj
            rw [hget p] at hpn'
            by_cases hji : j = i
            · -- the current node as a child: its parent is strictly below i
              rw [if_pos hji] at hj
              injection hj with hj
              subst hj
              subst hji
              simp only at hp
              have hpi := hplt j p pn hpn hp
              rw [if_neg (by omega), if_neg (by omega)] at hpn'
              have := hxp j p pn pn' hpn hp hpn' hX
              simpa using this
            · rw [if_neg hji] at hj
              by_cases hjl : j = tasks.length
              · -- the new child: its parent is the ascend result i
                rw [if_pos hjl] at hj
                injection hj with hj
                subst hj
                simp only [_createNewTaskNode, Option.some.injEq] at hp
                subst hp
                rw [if_pos rfl] at hpn'
                injection hpn' with hpn'
                subst hpn'
                simp only at hX ⊢
                have hfix := hxe i pn hpn hX
                rcases hstop with hnone | ⟨ee, hee, hlt⟩
                · rw [hfix] at hnone; cases hnone
                · exact ⟨ee, hee, hlt⟩
              · rw [if_neg hjl] at hj
                have hpj := hplt j p n hj hp
                have hplen : p < tasks.length := by
                  have := (List.getElem?_eq_some.mp hj).1
                  omega
                by_cases hpi : p = i
                · -- parent is the modified node: only its children changed
                  rw [if_pos hpi] at hpn'
                  injection hpn' with hpn'
                  subst hpn'
                  subst hpi
                  simp only at hX ⊢
                  have := hxp j p n pn hj hp hpn hX
                  simpa using this
                · rw [if_neg hpi, if_neg (by omega)] at hpn'
                  exact hxp j p n pn' hj hp hpn' hX
          · intro c hc
            injection hc with hc
            subst hc
            rw [modifyAt_length]
            simp
        · rw [if_neg hXB] at hstep
          rw [hpn] at hstep
          simp only at hstep
          by_cases hnb : pn.event.ph ≠ "B"
          · rw [if_pos hnb] at hstep; cases hstep
          · rw [if_neg hnb] at hstep
            injection hstep with hstep
            subst hstep
            rw [not_not] at hnb
            have hget : ∀ j : Nat,
                (modifyAt tasks i (fun m => { m with endTime := some e.ts }))[j]? =
                if j = i then some { pn with endTime := some e.ts } else tasks[j]? := by
              intro j
              by_cases hji : j = i
              · subst hji
                rw [if_pos rfl]
                exact getElem?_modifyAt_self _ j _ pn hpn
              · rw [if_neg hji]
                exact getElem?_modifyAt_ne _ i _ j (fun h => hji h.symm)
            refine ⟨?_, ?_, ?_, ?_⟩
            · intro j p n hj hp
              rw [hget j] at hj
              by_cases hji : j = i
              · rw [if_pos hji] at hj
                injection hj with hj
                subst hj
                subst hji
                exact hplt j p pn hpn hp
              · rw [if_neg hji] at hj
                exact hplt j p n hj hp
            · intro j n hj hX
              rw [hget j] at hj
              by_cases hji : j = i
              · rw [if_pos hji] at hj
                injection hj with hj
                subst hj
                simp only at hX
                rw [hnb] at hX
                exact absurd hX (by decide)
              · rw [if_neg hji] at hj
                exact hxe j n hj hX
            · intro j p n pn' hj hp hpn' hX
              rw [hget j] at hj
              rw [hget p] at hpn'
              by_cases hji : j = i
              · rw [if_pos hji] at hj
                injection hj with hj
                subst hj
                subst hji
                simp only at hp
                have hpj := hplt j p pn hpn hp
                rw [if_neg (by omega)] at hpn'
                have := hxp j p pn pn' hpn hp hpn' hX
                simpa using this
              · rw [if_neg hji] at hj
                by_cases hpi : p = i
                · rw [if_pos hpi] at hpn'
                  injection hpn' with hpn'
                  subst hpn'
                  simp only at hX
                  rw [hnb] at hX
                  exact absurd hX (by decide)
                · rw [if_neg hpi] at hpn'
                  exact hxp j p n pn' hj hp hpn' hX
            · intro c hc
              have := hplt i c pn hpn hc
              rw [modifyAt_length]
              omega

theorem runEvents_inv (pid tid : Nat) :
    ∀ (events : List TraceEvent) (st st' : List TaskNode × Option Nat),
      runEvents pid tid events st = Except.ok st' → ReconInv st → ReconInv st' := by
  intro events
  induction events with
  | nil =>
    intro st st' h hinv
    injection h with h
    subst h
    exact hinv
  | cons e rest ih =>
    intro st st' h hinv
    simp only [runEvents] at h
    cases hs : stepEvent pid tid st e with
    | error m => rw [hs] at h; cases h
    | ok st1 =>
      rw [hs] at h
      obtain ⟨t, c⟩ := st
      exact ih st1 st' h (stepEvent_inv pid tid t c e st1 hs hinv)

theorem createTasks_inv (evts : List TraceEvent) (tasks : List TaskNode)
    (h : _createTasksFromEvents evts = Except.ok tasks) :
    parentLt tasks ∧ xEndFixed tasks ∧ xParentBound tasks := by
  unfold _createTasksFromEvents at h
  cases hf : findTracingStartedEvt evts with
  | error m => rw [hf] at h; cases h
  | ok s =>
    simp only [hf] at h
    cases hr : runEvents s.pid s.tid evts ([], none) with
    | error m => simp only [hr] at h; cases h
    | ok st' =>
      obtain ⟨t, c⟩ := st'
      simp only [hr] at h
      injection h with h
      subst h
      have h0 : ReconInv (([] : List TaskNode), (none : Option Nat)) := by
        refine ⟨?_, ?_, ?_, ?_⟩
        · intro i p n hi; simp at hi
        · intro i n hi; simp at hi
        · intro i p n pn hi; simp at hi
        · intro c hc; cases hc
      have := runEvents_inv s.pid s.tid evts ([], none) (t, c) hr h0
      exact ⟨this.1, this.2.1, this.2.2.1⟩

theorem overlapEvents_run : _createTasksFromEvents overlapEvents = Except.ok overlapTasks := by
  simp [_createTasksFromEvents, overlapEvents, findTracingStartedEvt, startedEvt,
    sampleEvent, runEvents, stepEvent, ascend, _createNewTaskNode, modifyAt, overlapTasks,
    taskGroupsOther, List.find?]
  norm_num

/-- C2 counterexample: on `overlapEvents` the reconstructor returns a forest
(`overlapTasks`) in which the child's half-open interval `[5, 105)` is NOT
contained in its parent's `[0, 10)`: containment fails on the end side. -/
theorem overlap_not_contained :
    _createTasksFromEvents overlapEvents = Except.ok overlapTasks ∧
    ¬ childIntervalsContained overlapTasks := by
  refine ⟨overlapEvents_run, ?_⟩
  intro hc
  have := (hc 1 0 (overlapTasks.get ⟨1, by norm_num [overlapTasks]⟩)
      (overlapTasks.get ⟨0, by norm_num [overlapTasks]⟩)
      (by simp [overlapTasks]) (by simp [overlapTasks]) (by simp [overlapTasks])).2
      105 10 (by simp [overlapTasks]) (by simp [overlapTasks])
  norm_num at this

/-- C2 (amended): the claimed containment of every child's
`[startTime, endTime)` inside its parent's interval does not hold of every
reconstructed forest (the end side can overrun, see the counterexample).
What the reconstructor does guarantee unconditionally is the start side
against Complete-event parents: in every forest it returns, every non-root
node whose parent was created from a Complete (`X`) event starts strictly
before that parent's (finite, fixed) end time. -/
theorem reconstructed_child_starts_before_xParent_end (evts : List TraceEvent)
    (tasks : List TaskNode) (h : _createTasksFromEvents evts = Except.ok tasks) :
    ∀ (i p : Nat) (n pn : TaskNode), tasks[i]? = some n → n.parent = some p →
      tasks[p]? = some pn → pn.event.ph = "X" →
      ∃ pe, pn.endTime = some pe ∧ n.startTime < pe := by
  have := createTasks_inv evts tasks h
  exact this.2.2

/-- C2 amended-claim witness: in the `overlapEvents` forest, the child (index
1, start 5) starts before its Complete-event parent's end 10. -/
theorem reconstructed_child_starts_before_xParent_end_witness :
    _createTasksFromEvents overlapEvents = Except.ok overlapTasks ∧
    ∃ pe, (overlapTasks.get ⟨0, by norm_num [overlapTasks]⟩).endTime = some pe ∧
      (overlapTasks.get ⟨1, by norm_num [overlapTasks]⟩).startTime < pe := by
  refine ⟨overlapEvents_run, ?_⟩
  exact reconstructed_child_starts_before_xParent_end overlapEvents overlapTasks
    overlapEvents_run 1 0 _ _ (by simp [overlapTasks]) (by simp [overlapTasks])
    (by simp [overlapTasks]) (by simp [overlapTasks, sampleEvent])

theorem annotateTasks_get (g : String → Option String) (tasks : List TaskNode) (i : Nat) :
    (annotateTasks g tasks)[i]? = tasks[i]?.map (fun n =>
      { n with duration := taskDuration n, selfTime := taskSelfTime tasks n,
               attributableURL := attributableURLAt tasks tasks.length i,
               group := groupAt g tasks tasks.length i }) := by
  simp [annotateTasks, List.getElem?_mapIdx]

theorem rescaleTasks_ok_get (firstTs : ℚ) :
    ∀ (l out : List TaskNode), rescaleTasks firstTs l = Except.ok out →
      out.length = l.length ∧
      (∀ (i : Nat) (n : TaskNode), l[i]? = some n →
        out[i]? = some
          { n with startTime := (n.startTime - firstTs) / 1000,
                   endTime := n.endTime.map (fun e => (e - firstTs) / 1000),
                   duration := n.duration.map (fun d => d / 1000),
                   selfTime := n.selfTime.map (fun s => s / 1000) }) ∧
      (∀ (i : Nat) (n : TaskNode), l[i]? = some n → ∃ s, n.selfTime = some s) := by
  intro l
  induction l with
  | nil =>
    intro out h
    injection h with h
    subst h
    refine ⟨rfl, ?_, ?_⟩ <;> intro i n hn <;> simp at hn
  | cons n rest ih =>
    intro out h
    simp only [rescaleTasks] at h
    cases hs : n.selfTime with
    | none => simp only [hs, Option.map_none'] at h; cases h
    | some s =>
      simp only [hs, Option.map_some'] at h
      cases hrest : rescaleTasks firstTs rest with
      | error m => rw [hrest] at h; cases h
      | ok out' =>
        rw [hrest] at h
        injection h with h
        subst h
        obtain ⟨hlen, hget, hsome⟩ := ih out' hrest
        refine ⟨by simp [hlen], ?_, ?_⟩
        · intro i m hm
          match i with
          | 0 =>
            simp only [List.getElem?_cons_zero, Option.some.injEq] at hm
            subst hm
            simp [hs]
          | i + 1 =>
            simp only [List.getElem?_cons_succ] at hm ⊢
            exact hget i m hm
        · intro i m hm
          match i with
          | 0 =>
            simp only [List.getElem?_cons_zero, Option.some.injEq] at hm
            subst hm
            exact ⟨s, hs⟩
          | i + 1 =>
            simp only [List.getElem?_cons_succ] at hm
            exact hsome i m hm

theorem rescaleTasks_error (firstTs : ℚ) :
    ∀ l : List TaskNode, (∃ n ∈ l, n.selfTime = none) →
      rescaleTasks firstTs l = Except.error ("Invalid task timing data") := by
  intro l
  induction l with
  | nil => intro h; simp at h
  | cons n rest ih =>
    intro h
    simp only [rescaleTasks]
    cases hs : n.selfTime with
    | none => simp [hs]
    | some s =>
      simp only [hs, Option.map_some']
      have hrest : ∃ m ∈ rest, m.selfTime = none := by
        rcases h with ⟨m, hm, hms⟩
        rcases List.mem_cons.mp hm with rfl | hm'
        · rw [hs] at hms; cases hms
        · exact ⟨m, hm', hms⟩
      simp only [ih hrest]

theorem childTime_foldl_none (tasks : List TaskNode) :
    ∀ js : List Nat,
      js.foldl (fun sum j => match sum, tasks[j]? with
        | some s, some c => (taskDuration c).map (fun d => s + d)
        | _, _ => none) none = none := by
  intro js
  induction js with
  | nil => rfl
  | cons j rest ih => simpa using ih

theorem childDurationSum_foldl_none (out : List TaskNode) :
    ∀ js : List Nat,
      js.foldl (fun sum j => match sum, out[j]? with
        | some s, some c => c.duration.map (fun d => s + d)
        | _, _ => none) none = none := by
  intro js
  induction js with
  | nil => rfl
  | cons j rest ih => simpa using ih

theorem childSum_div (tasks out : List TaskNode)
    (hpoint : ∀ (j : Nat) (cn : TaskNode), tasks[j]? = some cn →
      ∃ cm, out[j]? = some cm ∧ cm.duration = (taskDuration cn).map (fun d => d / 1000)) :
    ∀ (js : List Nat) (a c : ℚ),
      js.foldl (fun sum j => match sum, tasks[j]? with
        | some s, some cNode => (taskDuration cNode).map (fun d => s + d)
        | _, _ => none) (some a) = some c →
      js.foldl (fun sum j => match sum, out[j]? with
        | some s, some cNode => cNode.duration.map (fun d => s + d)
        | _, _ => none) (some (a / 1000)) = some (c / 1000) := by
  intro js
  induction js with
  | nil =>
    intro a c h
    injection h with h
    subst h
    rfl
  | cons j rest ih =>
    intro a c h
    simp only [List.foldl_cons] at h ⊢
    cases hj : tasks[j]? with
    | none =>
      rw [hj] at h
      simp only at h
      rw [childTime_foldl_none tasks rest] at h
      cases h
    | some cn =>
      rw [hj] at h
      simp only at h
      cases hd : taskDuration cn with
      | none =>
        rw [hd] at h
        simp only [Option.map_none'] at h
        rw [childTime_foldl_none tasks rest] at h
        cases h
      | some d =>
        rw [hd] at h
        simp only [Option.map_some'] at h
        obtain ⟨cm, hcm, hcd⟩ := hpoint j cn hj
        rw [hcm]
        simp only [hcd, hd, Option.map_some']
        have := ih (a + d) c h
        rw [add_div] at this
        exact this

/-- C1: for every `TaskNode` in the flat list `getMainThreadTasks` returns,
`duration = endTime - startTime` and
`selfTime = duration - (sum of the children's durations)`, and all of these
values are finite (`some`); and whenever a node's `duration`/`selfTime`
would be non-finite after the metrics pass, the call fails fatally with
"Invalid task timing data" instead of returning (a `none` `duration` forces
a `none` `selfTime`, which the rescale loop rejects). -/
theorem mainThreadTasks_timing (g : String → Option String) (evts : List TraceEvent) :
    (∀ (out : List TaskNode), getMainThreadTasks g evts = Except.ok out →
      ∀ (i : Nat) (m : TaskNode), out[i]? = some m →
        ∃ e d cd, m.endTime = some e ∧ m.duration = some d ∧ d = e - m.startTime ∧
          childDurationSum out m = some cd ∧ m.selfTime = some (d - cd)) ∧
    (∀ tasks : List TaskNode, _createTasksFromEvents evts = Except.ok tasks →
      (∃ n ∈ annotateTasks g tasks, n.selfTime = none) →
      getMainThreadTasks g evts = Except.error ("Invalid task timing data")) := by
  constructor
  · intro out hout i m hm
    unfold getMainThreadTasks at hout
    cases hct : _createTasksFromEvents evts with
    | error msg => rw [hct] at hout; cases hout
    | ok tasks =>
      simp only [hct] at hout
      obtain ⟨hlen, hget, hsome⟩ := rescaleTasks_ok_get (firstTaskTs tasks) _ out hout
      have hil : i < (annotateTasks g tasks).length := by
        have h1 := (List.getElem?_eq_some.mp hm).1
        omega
      have hin : i < tasks.length := by
        simpa [annotateTasks] using hil
      obtain ⟨n, htask⟩ : ∃ n, tasks[i]? = some n := ⟨_, List.getElem?_eq_getElem hin⟩
      have hanv : (annotateTasks g tasks)[i]? = some
          { n with duration := taskDuration n,
                   selfTime := taskSelfTime tasks n,
                   attributableURL := attributableURLAt tasks tasks.length i,
                   group := groupAt g tasks tasks.length i } := by
        rw [annotateTasks_get, htask, Option.map_some']
      have hmv := hget i _ hanv
      rw [hmv] at hm
      injection hm with hm
      have hpoint : ∀ (j : Nat) (cn : TaskNode), tasks[j]? = some cn →
          ∃ cm, out[j]? = some cm ∧
            cm.duration = (taskDuration cn).map (fun d => d / 1000) := by
        intro j cn hj
        have hanj : (annotateTasks g tasks)[j]? = some
            { cn with duration := taskDuration cn, selfTime := taskSelfTime tasks cn,
                      attributableURL := attributableURLAt tasks tasks.length j,
                      group := groupAt g tasks tasks.length j } := by
          rw [annotateTasks_get, hj, Option.map_some']
        exact ⟨_, hget j _ hanj, rfl⟩
      obtain ⟨s, hs⟩ := hsome i _ hanv
      simp only at hs
      have hs' := hs
      unfold taskSelfTime at hs'
      cases hd : taskDuration n with
      | none => rw [hd] at hs'; cases hs'
      | some d0 =>
        rw [hd] at hs'
        cases hc : childTime tasks n with
        | none => rw [hc] at hs'; cases hs'
        | some c0 =>
          rw [hc] at hs'
          injection hs' with hs'
          have hd2 := hd
          unfold taskDuration at hd2
          cases he : n.endTime with
          | none => rw [he] at hd2; cases hd2
          | some e0 =>
            rw [he, Option.map_some'] at hd2
            injection hd2 with hd2
            have hss : taskSelfTime tasks n = some (d0 - c0) := by
              unfold taskSelfTime
              rw [hd, hc]
            subst hm
            refine ⟨(e0 - firstTaskTs tasks) / 1000, d0 / 1000, c0 / 1000, ?_, ?_, ?_, ?_, ?_⟩
            · simp [he]
            · simp [hd]
            · show d0 / 1000 = (e0 - firstTaskTs tasks) / 1000 -
                (n.startTime - firstTaskTs tasks) / 1000
              rw [← hd2]
              ring
            · have hc' := hc
              unfold childTime at hc'
              have hdiv := childSum_div tasks out hpoint n.children 0 c0 hc'
              rw [zero_div] at hdiv
              simpa [childDurationSum] using hdiv
            · simp [hss, sub_div]
  · intro tasks hct hbad
    unfold getMainThreadTasks
    simp only [hct]
    exact rescaleTasks_error _ _ hbad

/-- C7: the rescale step of `getMainThreadTasks` is a pure affine transform
with reference point `firstTaskTs tasks`, the `startTime` of the first
element of the flat task list (0 if the list is empty): for every node,
post-rescale `startTime` is `(raw startTime - firstTs) / 1000`, post-rescale
`endTime` is `(raw endTime - firstTs) / 1000`, and `duration` and `selfTime`
(the metrics-pass values) are each divided by 1000 (microseconds to
milliseconds). -/
theorem mainThreadTasks_rescale (g : String → Option String) (evts : List TraceEvent)
    (tasks out : List TaskNode)
    (hct : _createTasksFromEvents evts = Except.ok tasks)
    (hmt : getMainThreadTasks g evts = Except.ok out) :
    firstTaskTs tasks = (match tasks[0]? with | some n0 => n0.startTime | none => 0) ∧
    out.length = tasks.length ∧
    ∀ (i : Nat) (n m : TaskNode), tasks[i]? = some n → out[i]? = some m →
      m.startTime = (n.startTime - firstTaskTs tasks) / 1000 ∧
      m.endTime = n.endTime.map (fun e => (e - firstTaskTs tasks) / 1000) ∧
      m.duration = (taskDuration n).map (fun d => d / 1000) ∧
      m.selfTime = (taskSelfTime tasks n).map (fun s => s / 1000) := by
  unfold getMainThreadTasks at hmt
  simp only [hct] at hmt
  obtain ⟨hlen, hget, -⟩ := rescaleTasks_ok_get (firstTaskTs tasks) _ out hmt
  refine ⟨rfl, by simpa [annotateTasks] using hlen, ?_⟩
  intro i n m htask hm
  have hanv : (annotateTasks g tasks)[i]? = some
      { n with duration := taskDuration n,
               selfTime := taskSelfTime tasks n,
               attributableURL := attributableURLAt tasks tasks.length i,
               group := groupAt g tasks tasks.length i } := by
    rw [annotateTasks_get, htask, Option.map_some']
  have hmv := hget i _ hanv
  rw [hmv] at hm
  injection hm with hm
  subst hm
  exact ⟨rfl, rfl, rfl, rfl⟩

theorem attributableURLAt_fuel (tasks : List TaskNode) (hplt : parentLt tasks) :
    ∀ (i f1 f2 : Nat), i < f1 → i < f2 →
      attributableURLAt tasks f1 i = attributableURLAt tasks f2 i := by
  intro i
  induction i using Nat.strong_induction_on with
  | _ i ih =>
    intro f1 f2 h1 h2
    obtain ⟨a, rfl⟩ : ∃ a, f1 = a + 1 := ⟨f1 - 1, by omega⟩
    obtain ⟨b, rfl⟩ : ∃ b, f2 = b + 1 := ⟨f2 - 1, by omega⟩
    simp only [attributableURLAt]
    cases hn : tasks[i]? with
    | none => rfl
    | some n =>
      cases hp : n.parent with
      | none => simp only [hp]
      | some p =>
        have hpi := hplt i p n hn hp
        simp only [hp]
        rw [ih p hpi a b (by omega) (by omega)]

theorem groupAt_fuel (g : String → Option String) (tasks : List TaskNode)
    (hplt : parentLt tasks) :
    ∀ (i f1 f2 : Nat), i < f1 → i < f2 →
      groupAt g tasks f1 i = groupAt g tasks f2 i := by
  intro i
  induction i using Nat.strong_induction_on with
  | _ i ih =>
    intro f1 f2 h1 h2
    obtain ⟨a, rfl⟩ : ∃ a, f1 = a + 1 := ⟨f1 - 1, by omega⟩
    obtain ⟨b, rfl⟩ : ∃ b, f2 = b + 1 := ⟨f2 - 1, by omega⟩
    simp only [groupAt]
    cases hn : tasks[i]? with
    | none => rfl
    | some n =>
      cases hg : g n.event.name with
      | some gr => simp only [hg]
      | none =>
        cases hp : n.parent with
        | none => simp only [hg, hp]
        | some p =>
          have hpi := hplt i p n hn hp
          simp only [hg, hp]
          rw [ih p hpi a b (by omega) (by omega)]

/-- C9: after the pre-order attribution passes, for every node of the forest
`getMainThreadTasks` returns: a root's `attributableURL` is its own
candidate URL (the explicit URL of its event's argument data, else the URL
of the first frame of its call stack, else absent — `taskURL`), and its
`group` is the table mapping for its event name, defaulting to the generic
"Other" category; a non-root node takes its parent's resolved
`attributableURL` when that is present (truthy) and its own candidate URL
otherwise, and takes the table mapping for its own event name when present
and its parent's resolved `group` otherwise — the parent's resolved values
being passed down unchanged. -/
theorem mainThreadTasks_attribution (g : String → Option String) (evts : List TraceEvent)
    (out : List TaskNode) (hmt : getMainThreadTasks g evts = Except.ok out) :
    ∀ (i : Nat) (m : TaskNode), out[i]? = some m →
      (m.parent = none → m.attributableURL = jsOrStr none (taskURL m.event) ∧
        m.group = (g m.event.name).getD taskGroupsOther) ∧
      (∀ p : Nat, m.parent = some p → ∃ pm, out[p]? = some pm ∧
        m.attributableURL = jsOrStr pm.attributableURL (taskURL m.event) ∧
        m.group = (g m.event.name).getD pm.group) := by
  intro i m hm
  unfold getMainThreadTasks at hmt
  cases hct : _createTasksFromEvents evts with
  | error msg => rw [hct] at hmt; cases hmt
  | ok tasks =>
    simp only [hct] at hmt
    have hplt := (createTasks_inv evts tasks hct).1
    obtain ⟨hlen, hget, -⟩ := rescaleTasks_ok_get (firstTaskTs tasks) _ out hmt
    have hil : i < (annotateTasks g tasks).length := by
      have h1 := (List.getElem?_eq_some.mp hm).1
      omega
    have hin : i < tasks.length := by
      simpa [annotateTasks] using hil
    obtain ⟨n, htask⟩ : ∃ n, tasks[i]? = some n := ⟨_, List.getElem?_eq_getElem hin⟩
    have hanv : (annotateTasks g tasks)[i]? = some
        { n with duration := taskDuration n,
                 selfTime := taskSelfTime tasks n,
                 attributableURL := attributableURLAt tasks tasks.length i,
                 group := groupAt g tasks tasks.length i } := by
      rw [annotateTasks_get, htask, Option.map_some']
    have hmv := hget i _ hanv
    rw [hmv] at hm
    injection hm with hm
    subst hm
    constructor
    · intro hroot
      simp only at hroot
      constructor
      · show attributableURLAt tasks tasks.length i = jsOrStr none (taskURL n.event)
        rw [attributableURLAt_fuel tasks hplt i tasks.length (i + 1) hin (by omega)]
        simp only [attributableURLAt, htask, hroot]
      · show groupAt g tasks tasks.length i = (g n.event.name).getD taskGroupsOther
        rw [groupAt_fuel g tasks hplt i tasks.length (i + 1) hin (by omega)]
        simp only [groupAt, htask, hroot]
        cases g n.event.name <;> rfl
    · intro p hp
      simp only at hp
      have hpi := hplt i p n htask hp
      have hpl : p < tasks.length := by omega
      obtain ⟨np, htaskp⟩ : ∃ np, tasks[p]? = some np := ⟨_, List.getElem?_eq_getElem hpl⟩
      have hanp : (annotateTasks g tasks)[p]? = some
          { np with duration := taskDuration np,
                    selfTime := taskSelfTime tasks np,
                    attributableURL := attributableURLAt tasks tasks.length p,
                    group := groupAt g tasks tasks.length p } := by
        rw [annotateTasks_get, htaskp, Option.map_some']
      refine ⟨_, hget p _ hanp, ?_, ?_⟩
      · show attributableURLAt tasks tasks.length i =
          jsOrStr (attributableURLAt tasks tasks.length p) (taskURL n.event)
        rw [attributableURLAt_fuel tasks hplt i tasks.length (i + 1) hin (by omega)]
        simp only [attributableURLAt, htask, hp]
        rw [attributableURLAt_fuel tasks hplt p i tasks.length hpi hpl]
      · show groupAt g tasks tasks.length i =
          (g n.event.name).getD (groupAt g tasks tasks.length p)
        rw [groupAt_fuel g tasks hplt i tasks.length (i + 1) hin (by omega)]
        simp only [groupAt, htask, hp]
        cases g n.event.name with
        | none =>
          simp only [Option.getD]
          rw [groupAt_fuel g tasks hplt p i tasks.length hpi hpl]
        | some gr => rfl

theorem nestedEvents_create : _createTasksFromEvents nestedEvents = Except.ok nestedTasksRaw := by
  simp [_createTasksFromEvents, nestedEvents, findTracingStartedEvt, startedEvt,
    sampleEvent, runEvents, stepEvent, ascend, _createNewTaskNode, modifyAt, nestedTasksRaw,
    taskGroupsOther, List.find?]
  norm_num

theorem nestedEvents_run :
    getMainThreadTasks (fun _ => none) nestedEvents = Except.ok nestedTasksOut := by
  simp only [getMainThreadTasks, nestedEvents_create]
  simp [annotateTasks, nestedTasksRaw, sampleEvent, taskDuration, childTime, taskSelfTime,
    attributableURLAt, groupAt, taskURL, jsOrStr, strTruthy, rescaleTasks, firstTaskTs,
    nestedTasksOut, taskGroupsOther, List.mapIdx]
  norm_num

/-- C1 witness: on the two-task nested trace, the root of the returned
forest has `endTime = 1`, `duration = 1 = endTime - startTime`, a child
duration sum of `1/5` and `selfTime = 1 - 1/5 = 4/5`. -/
theorem mainThreadTasks_timing_witness :
    getMainThreadTasks (fun _ => none) nestedEvents = Except.ok nestedTasksOut ∧
    ∃ m, nestedTasksOut[0]? = some m ∧
      ∃ e d cd, m.endTime = some e ∧ m.duration = some d ∧ d = e - m.startTime ∧
        childDurationSum nestedTasksOut m = some cd ∧ m.selfTime = some (d - cd) := by
  refine ⟨nestedEvents_run, ?_⟩
  exact ⟨_, rfl, (mainThreadTasks_timing (fun _ => none) nestedEvents).1 nestedTasksOut
    nestedEvents_run 0 _ rfl⟩

/-- C7 witness: on the two-task nested trace the rescale reference point is
1000 (the first task's raw start), and the child node's rescaled fields are
the affine images of its raw fields. -/
theorem mainThreadTasks_rescale_witness :
    _createTasksFromEvents nestedEvents = Except.ok nestedTasksRaw ∧
    getMainThreadTasks (fun _ => none) nestedEvents = Except.ok nestedTasksOut ∧
    firstTaskTs nestedTasksRaw = 1000 ∧
    ∃ n m, nestedTasksRaw[1]? = some n ∧ nestedTasksOut[1]? = some m ∧
      m.startTime = (n.startTime - firstTaskTs nestedTasksRaw) / 1000 ∧
      m.endTime = n.endTime.map (fun e => (e - firstTaskTs nestedTasksRaw) / 1000) ∧
      m.duration = (taskDuration n).map (fun d => d / 1000) ∧
      m.selfTime = (taskSelfTime nestedTasksRaw n).map (fun s => s / 1000) := by
  refine ⟨nestedEvents_create, nestedEvents_run, rfl, ?_⟩
  have h := (mainThreadTasks_rescale (fun _ => none) nestedEvents nestedTasksRaw
    nestedTasksOut nestedEvents_create nestedEvents_run).2.2 1 _ _ rfl rfl
  exact ⟨_, _, rfl, rfl, h.1, h.2.1, h.2.2.1, h.2.2.2⟩

/-- C9 witness: in the returned nested forest, the child (index 1) resolves
its `attributableURL` from its parent's resolved value (both absent here,
falling back to its own empty candidate) and inherits its parent's group
under the empty name-to-group table. -/
theorem mainThreadTasks_attribution_witness :
    getMainThreadTasks (fun _ => none) nestedEvents = Except.ok nestedTasksOut ∧
    ∃ m, nestedTasksOut[1]? = some m ∧ m.parent = some 0 ∧
      ∃ pm, nestedTasksOut[0]? = some pm ∧
        m.attributableURL = jsOrStr pm.attributableURL (taskURL m.event) ∧
        m.group = ((fun _ => (none : Option String)) m.event.name).getD pm.group := by
  refine ⟨nestedEvents_run, ?_⟩
  have h := ((mainThreadTasks_attribution (fun _ => none) nestedEvents nestedTasksOut
    nestedEvents_run) 1 _ rfl).2 0 rfl
  exact ⟨_, rfl, rfl, h⟩

/-- C8 witness: over the window `[0, 100]` the demo tab trace has exactly
one matching scheduler macrotask, and `getMainThreadTopLevelEvents` returns
exactly that (nonempty) record list. -/
theorem getMainThreadTopLevelEvents_spec_witness :
    topLevelExpected demoTabTrace 0 100 ≠ [] ∧
    getMainThreadTopLevelEvents demoTabTrace 0 100 =
      Except.ok (topLevelExpected demoTabTrace 0 100) := by
  have hne : topLevelExpected demoTabTrace 0 100 ≠ [] := by
    simp [topLevelExpected, demoTabTrace, sampleEvent, isScheduleableTask, durFalsy,
      SCHEDULABLE_TASK_TITLE, SCHEDULABLE_TASK_TITLE_ALT]
    norm_num
  exact ⟨hne, (getMainThreadTopLevelEvents_spec demoTabTrace 0 100).1 hne⟩

theorem getD_nonneg (l : List ℚ) (hnn : ∀ d ∈ l, 0 ≤ d) (k : Nat) : 0 ≤ l.getD k 0 := by
  by_cases hk : k < l.length
  · rw [List.getD_eq_getElem?_getD, List.getElem?_eq_getElem hk]
    exact hnn _ (List.getElem_mem hk)
  · rw [List.getD_eq_default _ _ (by omega)]

theorem sorted_le_last (l : List ℚ) (hs : List.Sorted (fun a b => a ≤ b) l)
    (d : ℚ) (hd : d ∈ l) : d ≤ l.getD (l.length - 1) 0 := by
  obtain ⟨⟨k, hk⟩, rfl⟩ := List.mem_iff_get.mp hd
  have hlen : 0 < l.length := by omega
  have hl : l.length - 1 < l.length := by omega
  rw [List.getD_eq_getElem?_getD, List.getElem?_eq_getElem hl]
  show l.get ⟨k, hk⟩ ≤ l.get ⟨l.length - 1, hl⟩
  rcases lt_or_ge k (l.length - 1) with h | h
  · exact List.pairwise_iff_get.mp hs ⟨k, hk⟩ ⟨l.length - 1, hl⟩ h
  · have : k = l.length - 1 := by omega
    subst this
    exact le_refl _

theorem riskInitState_inv (durations : List ℚ) (totalTime clippedLength : ℚ)
    (hsorted : List.Sorted (fun a b => a ≤ b) durations)
    (hcl : 0 ≤ clippedLength)
    (hclip : clippedLength = 0 ∨ ∃ d ∈ durations, clippedLength < d) :
    RiskInv durations (riskInitState durations totalTime clippedLength) := by
  have hc4 : 0 < clippedLength →
      (-1 : Int) ≤ (durations.length : Int) - 2 ∧
      clippedLength < durations.getD (durations.length - 1) 0 := by
    intro h
    rcases hclip with h0 | ⟨d, hd, hlt⟩
    · rw [h0] at h; exact absurd h (lt_irrefl 0)
    · have hne : durations ≠ [] := by rintro rfl; cases hd
      have hlen : 1 ≤ durations.length := by
        cases durations with
        | nil => exact absurd rfl hne
        | cons a l => simp
      exact ⟨by omega, lt_of_lt_of_le hlt (sorted_le_last durations hsorted d hd)⟩
  refine ⟨?_, ?_, ?_, ?_, ?_, ?_, ?_, ?_, ?_⟩
  · simp [riskInitState]
  · simp [riskInitState]
  · simp only [riskInitState]
    have : (0 : Int) ≤ (durations.length : Int) := by positivity
    omega
  · exact hcl
  · intro h
    exact hc4 h
  · intro h h2
    simpa [riskInitState] using hcl
  · intro h h2
    simp [riskInitState, clipFlag]
  · intro h h2
    simp only [riskInitState] at h2
    omega
  · intro h
    simp only [riskInitState] at h
    exact absurd h (by norm_num)

theorem riskInv_r_nonneg (durations : List ℚ) (st : RiskState)
    (hinv : RiskInv durations st) : 0 ≤ st.remainingCount := by
  obtain ⟨hA1, hA2a, hA2b, hA3, hA4, hA5, hA6, hA7, hA8⟩ := hinv
  rcases lt_or_ge st.duration 0 with hd | hd
  · have := hA8 hd
    omega
  · rcases lt_or_ge st.durationIndex 0 with hi | hi
    · have hie : st.durationIndex = -1 := by omega
      have h6 := hA6 hd hie
      by_cases hcf : 0 < st.clippedLength
      · rw [h6]
        simp only [clipFlag, if_pos hcf]
        omega
      · rw [h6]
        simp only [clipFlag, if_neg hcf]
        omega
    · have h7 := hA7 hd hi
      by_cases hcf : 0 < st.clippedLength
      · have := hA4 hcf
        rw [h7]
        simp only [clipFlag, if_pos hcf]
        omega
      · rw [h7]
        simp only [clipFlag, if_neg hcf]
        omega

theorem riskStepOnce_inv (durations : List ℚ) (target : ℚ) (st : RiskState)
    (hnn : ∀ d ∈ durations, 0 ≤ d)
    (hinv : RiskInv durations st) (hg : riskGuard durations target st) :
    RiskInv durations (riskStepOnce durations st) := by
  obtain ⟨hA1, hA2a, hA2b, hA3, hA4, hA5, hA6, hA7, hA8⟩ := hinv
  obtain ⟨hgc, hgi⟩ := hg
  simp only [riskStepOnce]
  by_cases hcb : 0 < st.clippedLength ∧
      st.clippedLength < durations.getD (st.durationIndex + 1).toNat 0
  · rw [if_pos hcb]
    have hd0 : 0 ≤ st.duration := by
      by_contra hdn
      push_neg at hdn
      have := (hA8 hdn).2.1
      rw [this] at hcb
      exact absurd hcb.1 (lt_irrefl 0)
    have hsign : (if st.duration < 0 then (-1 : Int) else 1) = 1 :=
      if_neg (not_lt.mpr hd0)
    have hK : clipFlag st = 1 := if_pos hcb.1
    refine ⟨rfl, hA2a, hA2b, le_refl 0, fun h => absurd h (lt_irrefl 0),
      fun h => absurd h (lt_irrefl 0), ?_, ?_, ?_⟩
    · intro h hie
      exfalso
      have h2 : (0 : ℚ) ≤ -st.clippedLength := h
      linarith [hcb.1]
    · intro h hi2
      exfalso
      have h2 : (0 : ℚ) ≤ -st.clippedLength := h
      linarith [hcb.1]
    · intro hneg
      refine ⟨?_, rfl, (hA4 hcb.1).1⟩
      show st.remainingCount - (if st.duration < 0 then (-1 : Int) else 1) =
        (durations.length : Int) - st.durationIndex - 2
      rw [hsign]
      rcases lt_or_ge st.durationIndex 0 with hi | hi
      · have hie : st.durationIndex = -1 := by omega
        have h6 := hA6 hd0 hie
        omega
      · have h7 := hA7 hd0 hi
        omega
  · rw [if_neg hcb]
    have hd' : 0 ≤ durations.getD (st.durationIndex + 1).toNat 0 := getD_nonneg durations hnn _
    have hrk : st.remainingCount - (if st.duration < 0 then (-1 : Int) else 1) =
        (durations.length : Int) - (st.durationIndex + 1) - clipFlag st := by
      rcases lt_or_ge st.duration 0 with hd | hd
      · obtain ⟨h8a, h8b, h8c⟩ := hA8 hd
        have hK0 : clipFlag st = 0 := by
          simp only [clipFlag, h8b]
          norm_num
        rw [if_pos hd, h8a, hK0]
        omega
      · rw [if_neg (not_lt.mpr hd)]
        rcases lt_or_ge st.durationIndex 0 with hi | hi
        · have hie : st.durationIndex = -1 := by omega
          have := hA6 hd hie
          omega
        · have := hA7 hd hi
          omega
    refine ⟨rfl, ?_, ?_, hA3, ?_, ?_, ?_, ?_, ?_⟩
    · show (-1 : Int) ≤ st.durationIndex + 1
      omega
    · show st.durationIndex + 1 ≤ (durations.length : Int) - 1
      omega
    · intro h
      have h' : 0 < st.clippedLength := h
      have h4 := hA4 h'
      refine ⟨?_, h4.2⟩
      show st.durationIndex + 1 ≤ (durations.length : Int) - 2
      by_contra hgt
      push_neg at hgt
      have hii : st.durationIndex + 1 = (durations.length : Int) - 1 := by omega
      have htn : (st.durationIndex + 1).toNat = durations.length - 1 := by omega
      rw [not_and_or] at hcb
      rcases hcb with hc1 | hc2
      · exact hc1 h'
      · push_neg at hc2
        rw [htn] at hc2
        exact absurd h4.2 (not_lt.mpr hc2)
    · intro h hd2
      have h' : 0 < st.clippedLength := h
      show durations.getD (st.durationIndex + 1).toNat 0 ≤ st.clippedLength
      rw [not_and_or] at hcb
      rcases hcb with hc1 | hc2
      · exact absurd h' hc1
      · push_neg at hc2
        exact hc2
    · intro hd2 hie
      exfalso
      have hie' : st.durationIndex + 1 = -1 := hie
      omega
    · intro hd2 hi
      show st.remainingCount - (if st.duration < 0 then (-1 : Int) else 1) =
        (durations.length : Int) - (st.durationIndex + 1) - clipFlag st
      exact hrk
    · intro hd2
      have hd2' : durations.getD (st.durationIndex + 1).toNat 0 < 0 := hd2
      exact absurd hd2' (not_lt.mpr hd')

theorem riskStepOnce_clip_eq (durations : List ℚ) (st : RiskState)
    (hcb : 0 < st.clippedLength ∧
      st.clippedLength < durations.getD (st.durationIndex + 1).toNat 0) :
    riskStepOnce durations st =
      { completedTime := st.completedTime + st.duration
        duration := -st.clippedLength
        cdfTime := st.completedTime + st.duration +
          |(-st.clippedLength)| *
            ((st.remainingCount - (if st.duration < 0 then -1 else 1) : Int) : ℚ)
        durationIndex := st.durationIndex
        remainingCount := st.remainingCount - (if st.duration < 0 then -1 else 1)
        clippedLength := 0 } := by
  simp only [riskStepOnce, if_pos hcb]

theorem riskStepOnce_else_eq (durations : List ℚ) (st : RiskState)
    (hcb : ¬(0 < st.clippedLength ∧
      st.clippedLength < durations.getD (st.durationIndex + 1).toNat 0)) :
    riskStepOnce durations st =
      { completedTime := st.completedTime + st.duration
        duration := durations.getD (st.durationIndex + 1).toNat 0
        cdfTime := st.completedTime + st.duration +
          |durations.getD (st.durationIndex + 1).toNat 0| *
            ((st.remainingCount - (if st.duration < 0 then -1 else 1) : Int) : ℚ)
        durationIndex := st.durationIndex + 1
        remainingCount := st.remainingCount - (if st.duration < 0 then -1 else 1)
        clippedLength := st.clippedLength } := by
  simp only [riskStepOnce, if_neg hcb]

theorem riskValue_nonneg (t : ℚ) (st : RiskState) : 0 ≤ riskValue t st :=
  le_max_left 0 _

theorem carry_value_step_nonneg (T' v c d : ℚ) (r : Int)
    (hv : 0 ≤ v) (hd : 0 ≤ d) (hr : 2 ≤ r)
    (hc1 : v ≤ max 0 ((T' - c) / (r : ℚ)))
    (hguard : c + d * (r : ℚ) < T') :
    v ≤ max 0 ((T' - (c + d)) / ((r - 1 : Int) : ℚ)) := by
  have hrq : (2 : ℚ) ≤ (r : ℚ) := by exact_mod_cast hr
  have hrpos : (0 : ℚ) < (r : ℚ) := by linarith
  have hr1pos : (0 : ℚ) < ((r - 1 : Int) : ℚ) := by push_cast; linarith
  rcases le_or_lt (T' - c) 0 with hTc | hTc
  · have hdiv : (T' - c) / (r : ℚ) ≤ 0 := div_nonpos_of_nonpos_of_nonneg hTc (le_of_lt hrpos)
    have hv0 : v ≤ 0 := le_trans hc1 (max_le (le_refl 0) hdiv)
    exact le_trans hv0 (le_max_left 0 _)
  · have hkey : (T' - c) / (r : ℚ) ≤ (T' - (c + d)) / ((r - 1 : Int) : ℚ) := by
      rw [div_le_div_iff₀ hrpos hr1pos]
      push_cast
      nlinarith [hguard]
    exact le_trans hc1 (max_le_max (le_refl 0) hkey)

theorem carry_value_step_neg (T' v c d : ℚ) (r : Int)
    (hv : 0 ≤ v) (hd : d < 0) (hr : 0 ≤ r)
    (hc1 : v ≤ max 0 ((T' - c) / (r : ℚ)))
    (hvd : v ≤ -d) :
    v ≤ max 0 ((T' - (c + d)) / ((r + 1 : Int) : ℚ)) := by
  have hr1pos : (0 : ℚ) < ((r + 1 : Int) : ℚ) := by
    push_cast
    have : (0 : ℚ) ≤ (r : ℚ) := by exact_mod_cast hr
    linarith
  rcases eq_or_lt_of_le hr with hr0 | hrpos
  · have : ((r : Int) : ℚ) = 0 := by rw [← hr0]; simp
    rw [this, div_zero] at hc1
    have hv0 : v ≤ 0 := by simpa using hc1
    exact le_trans hv0 (le_max_left 0 _)
  · have hrq : (0 : ℚ) < (r : ℚ) := by exact_mod_cast hrpos
    rcases le_or_lt (T' - c) 0 with hTc | hTc
    · have hdiv : (T' - c) / (r : ℚ) ≤ 0 := div_nonpos_of_nonpos_of_nonneg hTc (le_of_lt hrq)
      have hv0 : v ≤ 0 := le_trans hc1 (max_le (le_refl 0) hdiv)
      exact le_trans hv0 (le_max_left 0 _)
    · have hA : v ≤ (T' - c) / (r : ℚ) := by
        have : max 0 ((T' - c) / (r : ℚ)) = (T' - c) / (r : ℚ) :=
          max_eq_right (le_of_lt (div_pos hTc hrq))
        rwa [this] at hc1
      have hrv : v * (r : ℚ) ≤ T' - c := (le_div_iff₀ hrq).mp hA
      have htarget : v ≤ (T' - (c + d)) / ((r + 1 : Int) : ℚ) := by
        rw [le_div_iff₀ hr1pos]
        push_cast
        nlinarith [hrv, hvd]
      exact le_trans htarget (le_max_right 0 _)

theorem carry_value_transient (T' v c d cl : ℚ)
    (hv : 0 ≤ v) (hdcl : d ≤ cl)
    (hc1 : v ≤ max 0 ((T' - c) / ((1 : Int) : ℚ))) :
    v ≤ max 0 ((T' - (c + d - cl)) / ((1 : Int) : ℚ)) := by
  have h1 : ((1 : Int) : ℚ) = 1 := by norm_num
  rw [h1, div_one] at hc1 ⊢
  rcases le_or_lt (T' - c) 0 with hTc | hTc
  · have hv0 : v ≤ 0 := le_trans hc1 (max_le (le_refl 0) hTc)
    exact le_trans hv0 (le_max_left 0 _)
  · have hA : v ≤ T' - c := le_trans hc1 (max_le (le_of_lt hTc) (le_refl _))
    have : v ≤ T' - (c + d - cl) := by linarith
    exact le_trans this (le_max_right 0 _)

theorem riskStepOnce_carry (durations : List ℚ) (T' v : ℚ) (st : RiskState)
    (hnn : ∀ d ∈ durations, 0 ≤ d)
    (hinv : RiskInv durations st) (hg : riskGuard durations T' st)
    (hv : 0 ≤ v) (hcarry : RiskCarry v T' st)
    (hr1 : 0 ≤ st.duration → 1 ≤ (riskStepOnce durations st).remainingCount) :
    RiskCarry v T' (riskStepOnce durations st) := by
  have hrnn := riskInv_r_nonneg durations st hinv
  obtain ⟨hc1, hc2, hc3⟩ := hcarry
  obtain ⟨hA1, hA2a, hA2b, hA3, hA4, hA5, hA6, hA7, hA8⟩ := hinv
  obtain ⟨hgc, hgi⟩ := hg
  by_cases hcb : 0 < st.clippedLength ∧
      st.clippedLength < durations.getD (st.durationIndex + 1).toNat 0
  · have hd0 : 0 ≤ st.duration := by
      by_contra hneg
      exact absurd ((hA8 (lt_of_not_ge hneg)).2.1 ▸ hcb.1) (lt_irrefl 0)
    have hsign : (if st.duration < 0 then (-1 : Int) else 1) = 1 :=
      if_neg (not_lt.mpr hd0)
    have hrstep : (riskStepOnce durations st).remainingCount =
        st.remainingCount - 1 := by
      rw [riskStepOnce_clip_eq durations st hcb, hsign]
    have hr2 : 2 ≤ st.remainingCount := by
      have := hr1 hd0
      omega
    have hguard : st.completedTime + st.duration * (st.remainingCount : ℚ) < T' := by
      rw [hA1, abs_of_nonneg hd0] at hgc
      exact hgc
    rw [riskStepOnce_clip_eq durations st hcb, hsign]
    refine ⟨?_, ?_, ?_⟩
    · show v ≤ max 0 ((T' - (st.completedTime + st.duration)) /
        ((st.remainingCount - 1 : Int) : ℚ))
      exact carry_value_step_nonneg T' v st.completedTime st.duration
        st.remainingCount hv hd0 hr2 hc1 hguard
    · intro h
      exact absurd h (lt_irrefl 0)
    · intro hneg
      show v ≤ -(-st.clippedLength)
      rw [neg_neg]
      exact hc2 hcb.1
  · rw [riskStepOnce_else_eq durations st hcb]
    have hdnext : 0 ≤ durations.getD (st.durationIndex + 1).toNat 0 :=
      getD_nonneg durations hnn _
    rcases lt_or_ge st.duration 0 with hdneg | hd0
    · have hsign : (if st.duration < 0 then (-1 : Int) else 1) = -1 :=
        if_pos hdneg
      rw [hsign]
      refine ⟨?_, ?_, ?_⟩
      · show v ≤ max 0 ((T' - (st.completedTime + st.duration)) /
          ((st.remainingCount - -1 : Int) : ℚ))
        have := carry_value_step_neg T' v st.completedTime st.duration
          st.remainingCount hv hdneg hrnn hc1 (hc3 hdneg)
        have heq : (st.remainingCount - -1 : Int) = st.remainingCount + 1 := by omega
        rw [heq]
        exact this
      · intro h
        exact hc2 h
      · intro h
        exact absurd h (not_lt.mpr hdnext)
    · have hsign : (if st.duration < 0 then (-1 : Int) else 1) = 1 :=
        if_neg (not_lt.mpr hd0)
      have hrstep : (riskStepOnce durations st).remainingCount =
          st.remainingCount - 1 := by
        rw [riskStepOnce_else_eq durations st hcb, hsign]
      have hr2 : 2 ≤ st.remainingCount := by
        have := hr1 hd0
        omega
      have hguard : st.completedTime + st.duration * (st.remainingCount : ℚ) < T' := by
        rw [hA1, abs_of_nonneg hd0] at hgc
        exact hgc
      rw [hsign]
      refine ⟨?_, ?_, ?_⟩
      · show v ≤ max 0 ((T' - (st.completedTime + st.duration)) /
          ((st.remainingCount - 1 : Int) : ℚ))
        exact carry_value_step_nonneg T' v st.completedTime st.duration
          st.remainingCount hv hd0 hr2 hc1 hguard
      · intro h
        exact hc2 h
      · intro h
        exact absurd h (not_lt.mpr hdnext)

theorem riskStepOnce_transient (durations : List ℚ) (T' v : ℚ) (st : RiskState)
    (hnn : ∀ d ∈ durations, 0 ≤ d)
    (hinv : RiskInv durations st) (hg : riskGuard durations T' st)
    (hv : 0 ≤ v) (hcarry : RiskCarry v T' st)
    (hr0 : (riskStepOnce durations st).remainingCount = 0) :
    riskGuard durations T' (riskStepOnce durations st) ∧
    RiskCarry v T' (riskStepOnce durations (riskStepOnce durations st)) := by
  have hrnn := riskInv_r_nonneg durations st hinv
  obtain ⟨hc1, hc2, hc3⟩ := hcarry
  obtain ⟨hA1, hA2a, hA2b, hA3, hA4, hA5, hA6, hA7, hA8⟩ := hinv
  obtain ⟨hgc, hgi⟩ := hg
  by_cases hcb : 0 < st.clippedLength ∧
      st.clippedLength < durations.getD (st.durationIndex + 1).toNat 0
  · have hd0 : 0 ≤ st.duration := by
      by_contra hneg
      exact absurd ((hA8 (lt_of_not_ge hneg)).2.1 ▸ hcb.1) (lt_irrefl 0)
    have hsign : (if st.duration < 0 then (-1 : Int) else 1) = 1 :=
      if_neg (not_lt.mpr hd0)
    have hrstep : (riskStepOnce durations st).remainingCount =
        st.remainingCount - 1 := by
      rw [riskStepOnce_clip_eq durations st hcb, hsign]
    have hrval : st.remainingCount = 1 := by omega
    have hst' : riskStepOnce durations st =
        { completedTime := st.completedTime + st.duration
          duration := -st.clippedLength
          cdfTime := st.completedTime + st.duration
          durationIndex := st.durationIndex
          remainingCount := 0
          clippedLength := 0 } := by
      rw [riskStepOnce_clip_eq durations st hcb, hsign, hrval]
      simp
    have hgc' : st.completedTime + st.duration < T' := by
      rw [hA1, hrval] at hgc
      simpa [abs_of_nonneg hd0] using hgc
    have hneg' : -st.clippedLength < 0 := neg_neg_iff_pos.mpr hcb.1
    constructor
    · rw [hst']
      exact ⟨hgc', hgi⟩
    · rw [hst']
      rw [riskStepOnce_else_eq durations _ (by simp)]
      have hdnext : 0 ≤ durations.getD (st.durationIndex + 1).toNat 0 :=
        getD_nonneg durations hnn _
      refine ⟨?_, ?_, ?_⟩
      · show v ≤ max 0 ((T' - (st.completedTime + st.duration + -st.clippedLength)) /
          ((0 - (if -st.clippedLength < 0 then (-1 : Int) else 1) : Int) : ℚ))
        rw [if_pos hneg']
        have h01 : (0 - (-1 : Int)) = 1 := by norm_num
        rw [h01]
        have hsub : st.completedTime + st.duration + -st.clippedLength =
            st.completedTime + st.duration - st.clippedLength := by ring
        rw [hsub]
        have hc1' : v ≤ max 0 ((T' - st.completedTime) / ((st.remainingCount : Int) : ℚ)) := hc1
        rw [hrval] at hc1'
        exact carry_value_transient T' v st.completedTime st.duration st.clippedLength
          hv (hA5 hcb.1 hd0) hc1'
      · intro h
        exact absurd h (lt_irrefl 0)
      · intro h
        exact absurd h (not_lt.mpr hdnext)
  · exfalso
    have hcb' := hcb
    push_neg at hcb'
    have hrstep : (riskStepOnce durations st).remainingCount =
        st.remainingCount - (if st.duration < 0 then -1 else 1) := by
      rw [riskStepOnce_else_eq durations st hcb]
    rcases lt_or_ge st.duration 0 with hdneg | hd0
    · rw [if_pos hdneg] at hrstep
      omega
    · rw [if_neg (not_lt.mpr hd0)] at hrstep
      have hrval : st.remainingCount = 1 := by omega
      rcases lt_or_ge st.durationIndex 0 with hi | hi
      · have hie : st.durationIndex = -1 := by omega
        have h6 := hA6 hd0 hie
        by_cases hcf : 0 < st.clippedLength
        · simp only [clipFlag, if_pos hcf] at h6
          have hlen : (durations.length : Int) = 1 := by omega
          have h4 := hA4 hcf
          have hle := hcb' hcf
          have hidx : (st.durationIndex + 1).toNat = durations.length - 1 := by omega
          rw [hidx] at hle
          exact absurd h4.2 (not_lt.mpr hle)
        · simp only [clipFlag, if_neg hcf] at h6
          omega
      · have h7 := hA7 hd0 hi
        by_cases hcf : 0 < st.clippedLength
        · simp only [clipFlag, if_pos hcf] at h7
          have h4 := hA4 hcf
          have hle := hcb' hcf
          have hidx : (st.durationIndex + 1).toNat = durations.length - 1 := by omega
          rw [hidx] at hle
          exact absurd h4.2 (not_lt.mpr hle)
        · simp only [clipFlag, if_neg hcf] at h7
          omega

theorem riskAdvance_carry (durations : List ℚ) (T' : ℚ)
    (hnn : ∀ d ∈ durations, 0 ≤ d) :
    ∀ (fuel : Nat) (st : RiskState) (v : ℚ), riskMeasure durations st ≤ fuel →
      RiskInv durations st → 0 ≤ v → RiskCarry v T' st →
      RiskInv durations (riskAdvance durations T' fuel st) ∧
      RiskCarry v T' (riskAdvance durations T' fuel st) := by
  intro fuel
  induction fuel using Nat.strong_induction_on with
  | _ fuel ih =>
    intro st v hm hinv hv hcarry
    match fuel, hm, ih with
    | 0, hm, ih =>
      exact ⟨hinv, hcarry⟩
    | fuel + 1, hm, ih =>
      rw [riskAdvance]
      split_ifs with hg
      · have hinv' := riskStepOnce_inv durations T' st hnn hinv hg
        have hmd := riskStepOnce_measure durations st hg.2
        by_cases hr0 : (riskStepOnce durations st).remainingCount = 0
        · obtain ⟨hg', hcarry''⟩ :=
            riskStepOnce_transient durations T' v st hnn hinv hg hv hcarry hr0
          have hm' : 1 ≤ riskMeasure durations (riskStepOnce durations st) :=
            riskGuard_measure_pos durations T' _ hg'
          obtain ⟨f2, rfl⟩ : ∃ f2, fuel = f2 + 1 := ⟨fuel - 1, by omega⟩
          rw [riskAdvance, if_pos hg']
          have hinv'' := riskStepOnce_inv durations T' _ hnn hinv' hg'
          have hmd2 := riskStepOnce_measure durations _ hg'.2
          exact ih f2 (by omega) _ v (by omega) hinv'' hv hcarry''
        · have hrnn' := riskInv_r_nonneg durations _ hinv'
          have hcarry' := riskStepOnce_carry durations T' v st hnn hinv hg hv hcarry
            (fun _ => by omega)
          exact ih fuel (by omega) _ v (by omega) hinv' hv hcarry'
      · exact ⟨hinv, hcarry⟩

theorem riskCarry_emission (durations : List ℚ) (T1 T2 : ℚ) (st : RiskState)
    (hinv : RiskInv durations st) (hng : ¬ riskGuard durations T1 st)
    (hT : T1 ≤ T2) :
    RiskCarry (riskValue T1 st) T2 st := by
  have hrnn := riskInv_r_nonneg durations st hinv
  obtain ⟨hA1, hA2a, hA2b, hA3, hA4, hA5, hA6, hA7, hA8⟩ := hinv
  have hkey : T1 ≤ st.cdfTime → riskValue T1 st ≤ |st.duration| := by
    intro hcdf
    rw [hA1] at hcdf
    rcases eq_or_lt_of_le hrnn with h0 | hpos
    · have hz : ((st.remainingCount : Int) : ℚ) = 0 := by rw [← h0]; simp
      unfold riskValue
      rw [hz, div_zero]
      simp
    · have hq : (0 : ℚ) < (st.remainingCount : ℚ) := by exact_mod_cast hpos
      unfold riskValue
      refine max_le (abs_nonneg _) ?_
      rw [div_le_iff₀ hq]
      linarith
  refine ⟨?_, ?_, ?_⟩
  · rcases eq_or_lt_of_le hrnn with h0 | hpos
    · have hz : ((st.remainingCount : Int) : ℚ) = 0 := by rw [← h0]; simp
      unfold riskValue
      rw [hz]
      simp
    · have hq : (0 : ℚ) < (st.remainingCount : ℚ) := by exact_mod_cast hpos
      unfold riskValue
      exact max_le_max (le_refl 0) ((div_le_div_iff_of_pos_right hq).mpr (by linarith))
  · intro hcl
    rcases not_and_or.mp hng with hA | hB
    · push_neg at hA
      rcases lt_or_ge st.duration 0 with hdneg | hd0
      · exact absurd ((hA8 hdneg).2.1 ▸ hcl) (lt_irrefl 0)
      · have := hkey hA
        rw [abs_of_nonneg hd0] at this
        exact le_trans this (hA5 hcl hd0)
    · push_neg at hB
      have := hA4 hcl
      omega
  · intro hdneg
    rcases not_and_or.mp hng with hA | hB
    · have := hkey (by push_neg at hA; exact hA)
      rwa [abs_of_neg hdneg] at this
    · push_neg at hB
      have := hA8 hdneg
      omega

theorem riskCarry_zero (T : ℚ) (st : RiskState) : RiskCarry 0 T st :=
  ⟨riskValue_nonneg T st, fun h => le_of_lt h, fun h => le_of_lt (neg_pos.mpr h)⟩

theorem riskLoop_mono_aux (durations : List ℚ) (totalTime : ℚ)
    (hnn : ∀ d ∈ durations, 0 ≤ d) (hT : 0 ≤ totalTime) :
    ∀ (ps : List ℚ) (st : RiskState) (v0 : ℚ),
      List.Sorted (fun a b => a ≤ b) ps →
      RiskInv durations st → 0 ≤ v0 →
      (∀ p ∈ ps, RiskCarry v0 (p * totalTime) st) →
      List.Sorted (fun a b => a ≤ b)
        ((riskLoop durations totalTime ps st).map RiskEntry.time) ∧
      ∀ e ∈ riskLoop durations totalTime ps st,
        v0 + BASE_RESPONSE_LATENCY ≤ e.time := by
  intro ps
  induction ps with
  | nil =>
    intro st v0 _ _ _ _
    exact ⟨by simp [riskLoop], by simp [riskLoop]⟩
  | cons p rest ih =>
    intro st v0 hsorted hinv hv0 hcarry
    rw [List.sorted_cons] at hsorted
    obtain ⟨hple, hsrest⟩ := hsorted
    have hm : riskMeasure durations st ≤ durations.length + 2 :=
      riskMeasure_le durations st hinv.2.1
    obtain ⟨hinv1, hcarry1⟩ := riskAdvance_carry durations (p * totalTime) hnn
      (durations.length + 2) st v0 hm hinv hv0 (hcarry p (List.mem_cons_self p rest))
    set st1 := riskAdvance durations (p * totalTime) (durations.length + 2) st with hst1
    have hng : ¬ riskGuard durations (p * totalTime) st1 :=
      riskAdvance_not_guard durations (p * totalTime) (durations.length + 2) st hm
    have hcrest : ∀ q ∈ rest,
        RiskCarry (riskValue (p * totalTime) st1) (q * totalTime) st1 := by
      intro q hq
      exact riskCarry_emission durations (p * totalTime) (q * totalTime) st1 hinv1 hng
        (mul_le_mul_of_nonneg_right (hple q hq) hT)
    have hvnew : 0 ≤ riskValue (p * totalTime) st1 := riskValue_nonneg _ _
    obtain ⟨ihs, ihb⟩ := ih st1 (riskValue (p * totalTime) st1) hsrest hinv1 hvnew hcrest
    have hloop : riskLoop durations totalTime (p :: rest) st =
        ({ percentile := p, time := riskTime (p * totalTime) st1 } : RiskEntry) ::
          riskLoop durations totalTime rest st1 := rfl
    have htime : riskTime (p * totalTime) st1 =
        riskValue (p * totalTime) st1 + BASE_RESPONSE_LATENCY := rfl
    constructor
    · rw [hloop, List.map_cons, List.sorted_cons]
      refine ⟨?_, ihs⟩
      intro b hb
      obtain ⟨e, he, rfl⟩ := List.mem_map.mp hb
      have := ihb e he
      show riskTime (p * totalTime) st1 ≤ e.time
      rw [htime]
      linarith
    · intro e he
      rw [hloop] at he
      rcases List.mem_cons.mp he with rfl | he'
      · show v0 + BASE_RESPONSE_LATENCY ≤ riskTime (p * totalTime) st1
        rw [htime]
        have := hcarry1.1
        linarith
      · have := ihb e he'
        have hvle : v0 ≤ riskValue (p * totalTime) st1 := hcarry1.1
        linarith

/-- C4: for a fixed (ascending, nonnegative) duration list, nonnegative total
window time, and admissible clipped length, the `time` values emitted by
`_riskPercentiles` are monotonically nondecreasing along the (ascending)
requested percentiles: for `p1 ≤ p2` the reported time for `p1` is at most
the reported time for `p2`.  The hypotheses are exactly the shape of the
walk's input as produced by `getMainThreadTopLevelEventDurations` (sorted
nonnegative durations, clip either absent or strictly below some duration)
and by `getRiskToResponsiveness` (percentiles pre-sorted ascending). -/
theorem riskPercentiles_mono (durations : List ℚ) (totalTime : ℚ)
    (percentiles : List ℚ) (clippedLength : ℚ)
    (hsorted : List.Sorted (fun a b => a ≤ b) durations)
    (hnn : ∀ d ∈ durations, 0 ≤ d)
    (hT : 0 ≤ totalTime)
    (hcl : 0 ≤ clippedLength)
    (hclip : clippedLength = 0 ∨ ∃ d ∈ durations, clippedLength < d)
    (hps : List.Sorted (fun a b => a ≤ b) percentiles) :
    List.Sorted (fun a b => a ≤ b)
      ((_riskPercentiles durations totalTime percentiles clippedLength).map
        RiskEntry.time) := by
  have hinv0 := riskInitState_inv durations totalTime clippedLength hsorted hcl hclip
  exact (riskLoop_mono_aux durations totalTime hnn hT percentiles
    (riskInitState durations totalTime clippedLength) 0 hps hinv0 le_rfl
    (fun p _ => riskCarry_zero (p * totalTime) _)).1

theorem riskPercentiles_mono_witness :
    List.Sorted (fun a b => a ≤ b)
      ((_riskPercentiles [10, 20, 30] 100 [1/2, 1] 0).map RiskEntry.time) :=
  riskPercentiles_mono [10, 20, 30] 100 [1/2, 1] 0
    (by norm_num [List.sorted_cons])
    (by norm_num [List.forall_mem_cons])
    (by norm_num)
    le_rfl
    (Or.inl rfl)
    (by norm_num [List.sorted_cons])

end TracingProcessor
